import Mathlib

set_option maxHeartbeats 1000000
set_option maxRecDepth 100000

/-!
Verification of the retail customer segmentation pipeline
(`retail_analysis_script.py`).

The script is a single linear pandas pipeline: it inner-joins three tables
(customers, products, transactions), derives per-customer RFM metrics
(recency / frequency / monetary), scores each metric into quintiles with
`pd.qcut`, assigns a rule-based segment label, clusters customers with
K-means, and aggregates category performance.  This file gives a shallow
embedding of those computations over lists of records with exact rational
arithmetic (`ℚ` in place of float64, `ℤ` day numbers in place of
timestamps), and proves the specification claims about them.
-/

deriving instance DecidableEq for Except

namespace RetailAnalysis

/-! ## Data model

One structure per input CSV, with the columns the script reads.
`join_date` and `transaction_date` are modelled as whole-day numbers
(the script converts them with `pd.to_datetime`; all date arithmetic in
the script is in `.days`). -/

/-- a row of `customers_data.csv` (columns used by the script). -/
structure Customer where
  customer_id : ℕ
  join_date : ℤ
  customer_age : ℚ
  gender : String
  location : String
deriving Repr, DecidableEq

/-- a row of `products_data.csv`; only `product_id` and `product_category`
are used by the script (other descriptive columns never referenced). -/
structure Product where
  product_id : ℕ
  product_category : String
deriving Repr, DecidableEq

/-- a row of `transactions_data.csv` (columns used by the script). -/
structure Transaction where
  transaction_id : ℕ
  customer_id : ℕ
  product_id : ℕ
  transaction_date : ℤ
  quantity : ℚ
  total_amount : ℚ
deriving Repr, DecidableEq

/-- a row of the denormalized join
`transactions_df.merge(customers_df, on='customer_id').merge(products_df, on='product_id')`
together with the derived feature `customer_tenure_days`
(line 44: `transaction_date - join_date` in days).  The derived
calendar fields `transaction_month` / `transaction_year` (lines 42-43)
only feed the monthly rollup, which no claim touches, so they are not
carried. -/
structure SalesRecord where
  transaction_id : ℕ
  customer_id : ℕ
  product_id : ℕ
  transaction_date : ℤ
  quantity : ℚ
  total_amount : ℚ
  join_date : ℤ
  customer_age : ℚ
  gender : String
  location : String
  product_category : String
  customer_tenure_days : ℤ
deriving Repr, DecidableEq

/-- line 39: `sales_data = transactions_df.merge(customers_df, on='customer_id').merge(products_df, on='product_id')`.
Inner-join semantics: a transaction row is paired with every matching
customer row and every matching product row, and silently dropped when
either key has no match.  Left-to-right row order is preserved. -/
def sales_data (cs : List Customer) (ps : List Product) (ts : List Transaction) :
    List SalesRecord :=
  ts.flatMap fun t =>
    (cs.filter fun c => c.customer_id = t.customer_id).flatMap fun c =>
      (ps.filter fun p => p.product_id = t.product_id).map fun p =>
        { transaction_id := t.transaction_id
          customer_id := t.customer_id
          product_id := t.product_id
          transaction_date := t.transaction_date
          quantity := t.quantity
          total_amount := t.total_amount
          join_date := c.join_date
          customer_age := c.customer_age
          gender := c.gender
          location := c.location
          product_category := p.product_category
          customer_tenure_days := t.transaction_date - c.join_date }

/-! ## Grouping

`DataFrame.groupby(key)` (with the default `sort=True`) groups rows by
key and lists the groups in ascending key order. -/

/-- the distinct keys of `l` under `key`, in ascending order, as
`groupby` enumerates the groups. -/
def group_keys {α K : Type} [LinearOrder K] (l : List α) (key : α → K) : List K :=
  List.insertionSort (· ≤ ·) (l.map key).dedup

/-- maximum of a list of integers; the script takes `.max()` of a date
column, which is only ever applied to nonempty columns (on an empty
column pandas would yield `NaT` and the pipeline would be undefined). -/
def listMaxInt : List ℤ → ℤ
  | [] => 0
  | x :: xs => xs.foldl max x

/-- line 92: `snapshot_date = sales_data['transaction_date'].max() + pd.Timedelta(days=1)` —
a single global snapshot over ALL customers. -/
def snapshot_date (cs : List Customer) (ps : List Product) (ts : List Transaction) : ℤ :=
  listMaxInt ((sales_data cs ps ts).map (·.transaction_date)) + 1

/-- one row of the per-customer aggregation of lines 94-100. -/
structure RFMBase where
  customer_id : ℕ
  recency : ℤ
  frequency : ℕ
  monetary : ℚ
deriving Repr, DecidableEq

/-- lines 94-100: `rfm = sales_data.groupby('customer_id').agg({...})` with
recency `(snapshot_date - x.max()).days`, frequency `count`, monetary `sum`. -/
def rfm_base (cs : List Customer) (ps : List Product) (ts : List Transaction) :
    List RFMBase :=
  (group_keys (sales_data cs ps ts) (·.customer_id)).map fun k =>
    let g := (sales_data cs ps ts).filter fun r => r.customer_id = k
    { customer_id := k
      recency := snapshot_date cs ps ts - listMaxInt (g.map (·.transaction_date))
      frequency := g.length
      monetary := (g.map (·.total_amount)).sum }

/-- a row of the RFM table after line 103 re-attaches customer attributes. -/
structure RFMRow where
  customer_id : ℕ
  recency : ℤ
  frequency : ℕ
  monetary : ℚ
  customer_age : ℚ
  gender : String
  location : String
deriving Repr, DecidableEq, Inhabited

/-- line 103: `rfm = rfm.merge(customers_df[['customer_id','customer_age','gender','location']], on='customer_id')`
(inner join on the customer key). -/
def rfm (cs : List Customer) (ps : List Product) (ts : List Transaction) :
    List RFMRow :=
  (rfm_base cs ps ts).flatMap fun b =>
    (cs.filter fun c => c.customer_id = b.customer_id).map fun c =>
      { customer_id := b.customer_id
        recency := b.recency
        frequency := b.frequency
        monetary := b.monetary
        customer_age := c.customer_age
        gender := c.gender
        location := c.location }

/-! ## Quintile scoring (`pd.qcut`, lines 109-115)

`pd.qcut(x, 5, labels=ls)` computes the 0%,20%,40%,60%,80%,100% quantiles
of `x` with linear interpolation (`numpy` style: position `q*(n-1)` in
the sorted values), raises `ValueError: Bin edges must be unique` when
the six edges contain a duplicate (default `duplicates='raise'`), and
otherwise assigns value `v` to bin `i` (1-based) where `i` is the
left-`searchsorted` position of `v` among the edges, values equal to the
lowest edge going to bin 1 (`include_lowest=True`); bin `i` receives
label `ls[i-1]`.  Modelled over `ℚ` in place of float64. -/

/-- ascending sort of a rational column. -/
def sortRat (l : List ℚ) : List ℚ := List.insertionSort (· ≤ ·) l

/-- linear-interpolated quantile of an (ascending-sorted, nonempty)
column: position `h = q*(n-1)`, result `s[⌊h⌋] + (h-⌊h⌋)*(s[⌊h⌋+1]-s[⌊h⌋])`. -/
def quantileSorted (s : List ℚ) (q : ℚ) : ℚ :=
  s.getD ⌊q * ((s.length : ℚ) - 1)⌋₊ 0 +
    (q * ((s.length : ℚ) - 1) - (⌊q * ((s.length : ℚ) - 1)⌋₊ : ℚ)) *
      (s.getD (⌊q * ((s.length : ℚ) - 1)⌋₊ + 1) 0 - s.getD ⌊q * ((s.length : ℚ) - 1)⌋₊ 0)

/-- the six quintile bin edges of a column. -/
def qcutEdges (l : List ℚ) : List ℚ :=
  [0, 1/5, 2/5, 3/5, 4/5, 1].map (quantileSorted (sortRat l))

/-- `numpy.searchsorted(edges, v, side='left')`: the first index whose
edge is `≥ v` (list length if none). -/
def searchsortedLeft : List ℚ → ℚ → ℕ
  | [], _ => 0
  | e :: es, v => if v ≤ e then 0 else searchsortedLeft es v + 1

/-- the 1-based bin of a value: `searchsorted` with values equal to the
lowest edge adjusted into bin 1 (`include_lowest=True`). -/
def qcutIdx (edges : List ℚ) (v : ℚ) : ℕ :=
  if v = edges.headD 0 then 1 else searchsortedLeft edges v

/-- `pd.qcut(l, 5, labels)`: error on duplicate bin edges, otherwise the
label of each value's bin.  (For every input value the bin index lies in
`[1,5]` because the edges span the column's min and max, so the `getD`
default is never consulted.) -/
def qcut (l : List ℚ) (labels : List ℕ) : Except String (List ℕ) :=
  if (qcutEdges l).Nodup then
    .ok (l.map fun v => labels.getD (qcutIdx (qcutEdges l) v - 1) 0)
  else
    .error "Bin edges must be unique"

/-- `Series.rank(method='first')`: rank 1.. with ties broken by position
(stable first-occurrence tie-break): the rank of the element at `i` is
1 + (number of strictly smaller elements) + (number of equal elements
before position `i`). -/
def rankFirst (l : List ℚ) : List ℚ :=
  (List.range l.length).map fun i =>
    (((l.countP fun v => v < l.getD i 0) +
      ((l.take i).countP fun v => v = l.getD i 0) + 1 : ℕ) : ℚ)

/-- a row of the RFM table after lines 110-115 add the three quintile
scores and the concatenated score string. -/
structure ScoredRow where
  customer_id : ℕ
  recency : ℤ
  frequency : ℕ
  monetary : ℚ
  customer_age : ℚ
  gender : String
  location : String
  r_score : ℕ
  f_score : ℕ
  m_score : ℕ
  rfm_score : String
deriving Repr, DecidableEq, Inhabited

/-- attach the three score columns to the RFM rows positionally (pandas
column assignment aligns by row index). -/
def attachScores : List RFMRow → List ℕ → List ℕ → List ℕ → List ScoredRow
  | row :: rows, r :: rs, f :: fs, m :: ms =>
    { customer_id := row.customer_id, recency := row.recency, frequency := row.frequency,
      monetary := row.monetary, customer_age := row.customer_age, gender := row.gender,
      location := row.location, r_score := r, f_score := f, m_score := m,
      rfm_score := toString r ++ toString f ++ toString m } ::
      attachScores rows rs fs ms
  | _, _, _, _ => []

/-- lines 110-115:
`rfm['r_score'] = pd.qcut(rfm['recency'], 5, labels=[5,4,3,2,1])`,
`rfm['f_score'] = pd.qcut(rfm['frequency'].rank(method='first'), 5, labels=[1,2,3,4,5])`,
`rfm['m_score'] = pd.qcut(rfm['monetary'], 5, labels=[1,2,3,4,5])`,
`rfm['rfm_score'] = ...astype(str)` concatenation; the first `qcut`
failure aborts the run. -/
def rfm_scored (cs : List Customer) (ps : List Product) (ts : List Transaction) :
    Except String (List ScoredRow) :=
  match qcut ((rfm cs ps ts).map fun r => (r.recency : ℚ)) [5, 4, 3, 2, 1] with
  | .error e => .error e
  | .ok rs =>
    match qcut (rankFirst ((rfm cs ps ts).map fun r => (r.frequency : ℚ))) [1, 2, 3, 4, 5] with
    | .error e => .error e
    | .ok fs =>
      match qcut ((rfm cs ps ts).map fun r => r.monetary) [1, 2, 3, 4, 5] with
      | .error e => .error e
      | .ok ms => .ok (attachScores (rfm cs ps ts) rs fs ms)

/-- the rank of the entry at position `i` (the body of `rankFirst`). -/
def rankVal (l : List ℚ) (i : ℕ) : ℕ :=
  (l.countP fun v => decide (v < l.getD i 0)) +
    ((l.take i).countP fun v => decide (v = l.getD i 0)) + 1

/-! ## Claim C3 (amended): the quintile scores -/

/-- a bin population within one customer of a fifth of the table:
`n - 5 ≤ 5·c ≤ n + 5`. -/
def withinFifth (n c : ℕ) : Prop := n ≤ 5 * c + 5 ∧ 5 * c ≤ n + 5

/-- number of rows whose score column `proj` carries the value `w`. -/
def scoreCount (rows : List ScoredRow) (proj : ScoredRow → ℕ) (w : ℕ) : ℕ :=
  rows.countP fun row => proj row = w

/-- what holds of every successfully scored RFM table (claim C3 as
amended): all three scores lie in `{1..5}`; recency scoring is inverted
(minimal recency scores 5) while monetary scoring is direct (minimal
monetary scores 1) and the first-occurring minimal frequency scores 1;
the `f_score` bins are always within one customer of a fifth of the
population, and the `r_score`/`m_score` bins are whenever the underlying
metric column is duplicate-free (ties can push a bin further out). -/
def QuintileScoreSpec (rows : List ScoredRow) : Prop :=
  (∀ row ∈ rows, row.r_score ∈ ([1, 2, 3, 4, 5] : List ℕ) ∧
    row.f_score ∈ ([1, 2, 3, 4, 5] : List ℕ) ∧
    row.m_score ∈ ([1, 2, 3, 4, 5] : List ℕ)) ∧
  (∀ row ∈ rows, (∀ row' ∈ rows, row.recency ≤ row'.recency) → row.r_score = 5) ∧
  (∀ row ∈ rows, (∀ row' ∈ rows, row.monetary ≤ row'.monetary) → row.m_score = 1) ∧
  (∀ i, i < rows.length →
    (∀ row' ∈ rows, (rows.getD i default).frequency ≤ row'.frequency) →
    (∀ k, k < i → (rows.getD k default).frequency ≠ (rows.getD i default).frequency) →
    (rows.getD i default).f_score = 1) ∧
  (∀ w ∈ ([1, 2, 3, 4, 5] : List ℕ),
    withinFifth rows.length (scoreCount rows (·.f_score) w)) ∧
  ((rows.map (·.recency)).Nodup → ∀ w ∈ ([1, 2, 3, 4, 5] : List ℕ),
    withinFifth rows.length (scoreCount rows (·.r_score) w)) ∧
  ((rows.map (·.monetary)).Nodup → ∀ w ∈ ([1, 2, 3, 4, 5] : List ℕ),
    withinFifth rows.length (scoreCount rows (·.m_score) w))

/-! ## Concrete datasets

`ex2_*`: two customers with one purchase each — the smallest input on
which scoring succeeds.  `ex10_*`: ten customers with one purchase each
whose recencies are `[1,2,3,4,5,5,5,5,9,10]` — scoring succeeds, but the
four-way tie at recency 5 pushes one `r_score` bin to 4 of 10 customers
and empties another, and the all-tied frequency column sends a
lowest-frequency customer to `f_score 3`. -/

def ex2_customers : List Customer := [
  { customer_id := 1, join_date := 0, customer_age := 30, gender := "F", location := "X" },
  { customer_id := 2, join_date := 0, customer_age := 40, gender := "M", location := "Y" }]

def ex2_products : List Product := [{ product_id := 1, product_category := "Cat" }]

def ex2_transactions : List Transaction := [
  { transaction_id := 1, customer_id := 1, product_id := 1, transaction_date := 10,
    quantity := 1, total_amount := 10 },
  { transaction_id := 2, customer_id := 2, product_id := 1, transaction_date := 9,
    quantity := 1, total_amount := 20 }]

def ex2_scored : List ScoredRow := [
  { customer_id := 1, recency := 1, frequency := 1, monetary := 10, customer_age := 30,
    gender := "F", location := "X", r_score := 5, f_score := 1, m_score := 1,
    rfm_score := "511" },
  { customer_id := 2, recency := 2, frequency := 1, monetary := 20, customer_age := 40,
    gender := "M", location := "Y", r_score := 1, f_score := 5, m_score := 5,
    rfm_score := "155" }]

def ex10_customers : List Customer :=
  (List.range 10).map fun i =>
    { customer_id := i + 1, join_date := 0, customer_age := 30, gender := "F",
      location := "X" }

def ex10_products : List Product := [{ product_id := 1, product_category := "Cat" }]

def ex10_dates : List ℤ := [10, 9, 8, 7, 6, 6, 6, 6, 2, 1]

def ex10_transactions : List Transaction :=
  (List.range 10).map fun i =>
    { transaction_id := i + 1, customer_id := i + 1, product_id := 1,
      transaction_date := ex10_dates.getD i 0, quantity := 1,
      total_amount := (10 : ℚ) * (i + 1) }

/-- the scored table the pipeline produces on the `ex10` dataset. -/
def ex10_scored : List ScoredRow :=
  [(1, (1 : ℤ), (10 : ℚ), 5, 1, 1, "511"), (2, 2, 20, 5, 1, 1, "511"),
   (3, 3, 30, 4, 2, 2, "422"), (4, 4, 40, 4, 2, 2, "422"),
   (5, 5, 50, 3, 3, 3, "333"), (6, 5, 60, 3, 3, 3, "333"),
   (7, 5, 70, 3, 4, 4, "344"), (8, 5, 80, 3, 4, 4, "344"),
   (9, 9, 90, 1, 5, 5, "155"), (10, 10, 100, 1, 5, 5, "155")].map
    fun x =>
      { customer_id := x.1, recency := x.2.1, frequency := 1, monetary := x.2.2.1,
        customer_age := 30, gender := "F", location := "X", r_score := x.2.2.2.1,
        f_score := x.2.2.2.2.1, m_score := x.2.2.2.2.2.1, rfm_score := x.2.2.2.2.2.2 }

/-! ## Segment labels (lines 134-146) -/

/-- lines 134-144: the rule cascade, exactly the `if/elif/else` chain of
`assign_segment_name(row)`; scores are compared as numbers (the `apply`
passes the integer label values). -/
def assign_segment_name (r_score f_score m_score : ℕ) : String :=
  if 4 ≤ r_score ∧ 4 ≤ f_score ∧ 4 ≤ m_score then "Champions"
  else if 3 ≤ r_score ∧ 3 ≤ f_score then "Loyal Customers"
  else if 4 ≤ r_score ∧ f_score ≤ 2 then "Potential Loyalists"
  else if r_score ≤ 2 then "At Risk"
  else "Others"

/-- first-match-wins evaluation of an ordered guarded-rule list. -/
def firstMatch {α : Type} : List ((α → Bool) × String) → String → α → String
  | [], dflt, _ => dflt
  | (g, lab) :: rest, dflt, x => if g x then lab else firstMatch rest dflt x

/-- the ordered rule list of spec section 4.1, written as data. -/
def segmentRules : List (((ℕ × ℕ × ℕ) → Bool) × String) :=
  [(fun s => decide (4 ≤ s.1 ∧ 4 ≤ s.2.1 ∧ 4 ≤ s.2.2), "Champions"),
   (fun s => decide (3 ≤ s.1 ∧ 3 ≤ s.2.1), "Loyal Customers"),
   (fun s => decide (4 ≤ s.1 ∧ s.2.1 ≤ 2), "Potential Loyalists"),
   (fun s => decide (s.1 ≤ 2), "At Risk")]

/-- the spec's reading of segment assignment (section 4.1): the fixed
ordered rule cascade evaluated first-match-wins with default "Others" —
stated separately from `assign_segment_name` so the two can be proved
equal. -/
def spec_segment_cascade (r_score f_score m_score : ℕ) : String :=
  firstMatch segmentRules "Others" (r_score, f_score, m_score)

/-! ## K-means clustering (lines 120-131)

`StandardScaler().fit_transform` standardizes each feature to zero mean
and unit variance (features with zero variance are left unscaled), and
`KMeans(n_clusters=4, ...).fit_predict` raises
`ValueError: n_samples=... should be >= n_clusters=...` when there are
fewer rows than clusters and otherwise assigns each row the index of its
nearest centroid.  Standardization is an affine map per coordinate, so
running Lloyd iterations on the raw points under the squared distance
`Σ (xᵢ-yᵢ)²/varᵢ` is exactly K-means on the standardized points — this
keeps all arithmetic in `ℚ` (no square roots).  The source initializes
with `k-means++` under seed 42; the model uses a deterministic
initialization (the first `k` rows) and 10 Lloyd iterations, since the
spec fixes no meaning for the label values ("label values are
arbitrary", 4.2) and no claim depends on which partition is found. -/

/-- a raw feature row `(recency, frequency, monetary)`. -/
def FeatureVec : Type := ℚ × ℚ × ℚ

def mean (l : List ℚ) : ℚ := l.sum / l.length

/-- population variance, as `StandardScaler` computes it. -/
def variance (l : List ℚ) : ℚ := ((l.map fun x => (x - mean l) ^ 2).sum) / l.length

/-- the squared scale of a feature: its variance, or 1 when the variance
is zero (sklearn `_handle_zeros_in_scale`). -/
def varDiv (l : List ℚ) : ℚ := if variance l = 0 then 1 else variance l

def featureDivisors (pts : List FeatureVec) : ℚ × ℚ × ℚ :=
  (varDiv (pts.map fun p => p.1), varDiv (pts.map fun p => p.2.1),
   varDiv (pts.map fun p => p.2.2))

/-- squared distance in standardized space, `Σ (xᵢ-yᵢ)²/varᵢ`. -/
def wsqDist (dv : ℚ × ℚ × ℚ) (p q : FeatureVec) : ℚ :=
  (p.1 - q.1) ^ 2 / dv.1 + (p.2.1 - q.2.1) ^ 2 / dv.2.1 + (p.2.2 - q.2.2) ^ 2 / dv.2.2

/-- index of the first minimum of a nonempty list. -/
def argminIdx : List ℚ → ℕ
  | [] => 0
  | x :: xs =>
    match xs with
    | [] => 0
    | _ :: _ =>
      let j := argminIdx xs
      if x ≤ xs.getD j 0 then 0 else j + 1

/-- nearest-centroid assignment of every point. -/
def assignLabels (dv : ℚ × ℚ × ℚ) (pts cents : List FeatureVec) : List ℕ :=
  pts.map fun p => argminIdx (cents.map (wsqDist dv p))

def meanPoint (ps : List FeatureVec) : FeatureVec :=
  (mean (ps.map fun p => p.1), mean (ps.map fun p => p.2.1), mean (ps.map fun p => p.2.2))

/-- one Lloyd update: move each centroid to the mean of its cluster
(keeping it in place when the cluster is empty). -/
def updateCentroids (dv : ℚ × ℚ × ℚ) (pts cents : List FeatureVec) : List FeatureVec :=
  (List.range cents.length).map fun j =>
    let cluster := pts.filter fun p => argminIdx (cents.map (wsqDist dv p)) = j
    if cluster.isEmpty then cents.getD j (0, 0, 0) else meanPoint cluster

def lloydIter (dv : ℚ × ℚ × ℚ) (pts : List FeatureVec) :
    ℕ → List FeatureVec → List FeatureVec
  | 0, cents => cents
  | n + 1, cents => lloydIter dv pts n (updateCentroids dv pts cents)

/-- `KMeans(n_clusters=k).fit_predict` on the standardized features:
raises when there are fewer samples than clusters, otherwise one integer
label below `k` per row. -/
def kmeans_fit_predict (k : ℕ) (pts : List FeatureVec) : Except String (List ℕ) :=
  if pts.length < k then
    .error "n_samples should be >= n_clusters"
  else
    .ok (assignLabels (featureDivisors pts)
      pts (lloydIter (featureDivisors pts) pts 10 (pts.take k)))

/-- lines 121-131: cluster the raw `['recency','frequency','monetary']`
columns of the RFM table (standardized) into `optimal_k = 4` clusters. -/
def rfm_clustered (cs : List Customer) (ps : List Product) (ts : List Transaction) :
    Except String (List ℕ) :=
  kmeans_fit_predict 4
    ((rfm cs ps ts).map fun r => ((r.recency : ℚ), (r.frequency : ℚ), r.monetary))

/-! ## The final per-customer table and the segment profile -/

/-- a row of the RFM table after line 131 adds the cluster id and line
146 adds the segment name. -/
structure FinalRow where
  customer_id : ℕ
  recency : ℤ
  frequency : ℕ
  monetary : ℚ
  customer_age : ℚ
  gender : String
  location : String
  r_score : ℕ
  f_score : ℕ
  m_score : ℕ
  rfm_score : String
  cluster : ℕ
  segment_name : String
deriving Repr, DecidableEq, Inhabited

/-- attach the cluster column positionally and apply
`assign_segment_name` to each row. -/
def buildFinal : List ScoredRow → List ℕ → List FinalRow
  | row :: rows, c :: cls =>
    { customer_id := row.customer_id, recency := row.recency, frequency := row.frequency,
      monetary := row.monetary, customer_age := row.customer_age, gender := row.gender,
      location := row.location, r_score := row.r_score, f_score := row.f_score,
      m_score := row.m_score, rfm_score := row.rfm_score, cluster := c,
      segment_name := assign_segment_name row.r_score row.f_score row.m_score } ::
      buildFinal rows cls
  | _, _ => []

/-- the pipeline through line 146: scores (110-115), clusters (129-131),
segment names (146); the first raised error aborts the run. -/
def rfm_final (cs : List Customer) (ps : List Product) (ts : List Transaction) :
    Except String (List FinalRow) :=
  match rfm_scored cs ps ts with
  | .error e => .error e
  | .ok scored =>
    match rfm_clustered cs ps ts with
    | .error e => .error e
    | .ok labels => .ok (buildFinal scored labels)

/-- banker's rounding (round half to even), as numpy/pandas round. -/
def roundHalfEven (y : ℚ) : ℤ :=
  if y - ⌊y⌋ < 1 / 2 then ⌊y⌋
  else if 1 / 2 < y - ⌊y⌋ then ⌊y⌋ + 1
  else if ⌊y⌋ % 2 = 0 then ⌊y⌋ else ⌊y⌋ + 1

/-- `.round(d)`: banker's rounding to `d` decimal places. -/
def roundTo (d : ℕ) (x : ℚ) : ℚ := (roundHalfEven (x * 10 ^ d) : ℚ) / 10 ^ d

/-- a row of `segment_profile` (lines 149-158). -/
structure SegmentProfileRow where
  segment_name : String
  avg_recency : ℚ
  avg_frequency : ℚ
  avg_monetary : ℚ
  customer_count : ℕ
  avg_age : ℚ
  percentage : ℚ
deriving Repr, DecidableEq

/-- lines 149-158: group the final table by segment name, average the
metrics (rounded to 2 decimals), count customers, and report each
segment's share of the population rounded to 1 decimal. -/
def segment_profile (rows : List FinalRow) : List SegmentProfileRow :=
  (group_keys rows (·.segment_name)).map fun seg =>
    let g := rows.filter fun row => row.segment_name = seg
    { segment_name := seg
      avg_recency := roundTo 2 (mean (g.map fun row => (row.recency : ℚ)))
      avg_frequency := roundTo 2 (mean (g.map fun row => (row.frequency : ℚ)))
      avg_monetary := roundTo 2 (mean (g.map (·.monetary)))
      customer_count := g.length
      avg_age := roundTo 2 (mean (g.map (·.customer_age)))
      percentage := roundTo 1 ((g.length : ℚ) / rows.length * 100) }

/-! ## Category performance (lines 77-83, 189) -/

/-- a row of `category_performance`. -/
structure CategoryRow where
  product_category : String
  total_revenue : ℚ
  avg_order_value : ℚ
  transaction_count : ℕ
  total_quantity : ℚ
deriving Repr, DecidableEq

/-- lines 77-83: group the joined sales data by product category,
aggregate revenue / average order value / count / quantity, round to 2
decimals, and sort by total revenue descending. -/
def category_performance (cs : List Customer) (ps : List Product)
    (ts : List Transaction) : List CategoryRow :=
  List.insertionSort (fun a b => b.total_revenue ≤ a.total_revenue)
    ((group_keys (sales_data cs ps ts) (·.product_category)).map fun cat =>
      let g := (sales_data cs ps ts).filter fun r => r.product_category = cat
      { product_category := cat
        total_revenue := roundTo 2 (g.map (·.total_amount)).sum
        avg_order_value := roundTo 2 (mean (g.map (·.total_amount)))
        transaction_count := g.length
        total_quantity := roundTo 2 (g.map (·.quantity)).sum })

/-- line 189: `total_revenue = sales_data['total_amount'].sum()`. -/
def total_revenue (cs : List Customer) (ps : List Product) (ts : List Transaction) : ℚ :=
  ((sales_data cs ps ts).map (·.total_amount)).sum

/-- the cluster labels the model produces on the `ex10` dataset. -/
def ex10_labels : List ℕ := [0, 1, 1, 2, 2, 2, 2, 2, 3, 3]

/-- the final table of the `ex10` dataset: scores, clusters, segments. -/
def ex10_final : List FinalRow := buildFinal ex10_scored ex10_labels

/-- a one-transaction dataset with the sub-cent amount `1/250 = 0.004`. -/
def exsub_customers : List Customer :=
  [{ customer_id := 1, join_date := 0, customer_age := 30, gender := "F", location := "X" }]

def exsub_products : List Product := [{ product_id := 1, product_category := "Cat" }]

def exsub_transactions : List Transaction :=
  [{ transaction_id := 1, customer_id := 1, product_id := 1, transaction_date := 1,
     quantity := 1, total_amount := 1 / 250 }]

/-! ## Basic lemmas about the join and the grouping combinators -/

/-- membership characterization of the two-step inner join. -/
theorem mem_sales_data {cs : List Customer} {ps : List Product} {ts : List Transaction}
    {r : SalesRecord} :
    r ∈ sales_data cs ps ts ↔
      ∃ t ∈ ts, ∃ c ∈ cs, ∃ p ∈ ps,
        c.customer_id = t.customer_id ∧ p.product_id = t.product_id ∧
        r = { transaction_id := t.transaction_id
              customer_id := t.customer_id
              product_id := t.product_id
              transaction_date := t.transaction_date
              quantity := t.quantity
              total_amount := t.total_amount
              join_date := c.join_date
              customer_age := c.customer_age
              gender := c.gender
              location := c.location
              product_category := p.product_category
              customer_tenure_days := t.transaction_date - c.join_date } := by
  simp only [sales_data, List.mem_flatMap, List.mem_map, List.mem_filter,
    decide_eq_true_eq]
  constructor
  · rintro ⟨t, ht, c, ⟨hc, hcid⟩, p, ⟨hp, hpid⟩, hr⟩
    exact ⟨t, ht, c, hc, p, hp, hcid, hpid, hr.symm⟩
  · rintro ⟨t, ht, c, hc, p, hp, hcid, hpid, hr⟩
    exact ⟨t, ht, c, ⟨hc, hcid⟩, p, ⟨hp, hpid⟩, hr.symm⟩

theorem mem_group_keys {α K : Type} [LinearOrder K] {l : List α} {key : α → K} {k : K} :
    k ∈ group_keys l key ↔ k ∈ l.map key := by
  unfold group_keys
  rw [(List.perm_insertionSort (· ≤ ·) (l.map key).dedup).mem_iff, List.mem_dedup]

theorem nodup_group_keys {α K : Type} [LinearOrder K] (l : List α) (key : α → K) :
    (group_keys l key).Nodup :=
  ((List.perm_insertionSort (· ≤ ·) (l.map key).dedup).nodup_iff).mpr
    (List.nodup_dedup _)

theorem le_foldl_max_init (xs : List ℤ) (a : ℤ) : a ≤ xs.foldl max a := by
  induction xs generalizing a with
  | nil => exact le_refl a
  | cons y ys ih => exact le_trans (le_max_left a y) (ih (max a y))

theorem le_foldl_max (xs : List ℤ) (a x : ℤ) (h : x ∈ xs) : x ≤ xs.foldl max a := by
  induction xs generalizing a with
  | nil => cases h
  | cons y ys ih =>
    rcases List.mem_cons.mp h with rfl | hmem
    · exact le_trans (le_max_right a x) (le_foldl_max_init ys _)
    · exact ih _ hmem

theorem le_listMaxInt {l : List ℤ} {x : ℤ} (h : x ∈ l) : x ≤ listMaxInt l := by
  cases l with
  | nil => cases h
  | cons y ys =>
    rcases List.mem_cons.mp h with rfl | hmem
    · exact le_foldl_max_init ys x
    · exact le_foldl_max ys y x hmem

theorem foldl_max_mem (xs : List ℤ) (a : ℤ) : xs.foldl max a = a ∨ xs.foldl max a ∈ xs := by
  induction xs generalizing a with
  | nil => exact Or.inl rfl
  | cons y ys ih =>
    rcases ih (max a y) with h | h
    · rcases max_choice a y with hm | hm
      · exact Or.inl (by rw [List.foldl_cons, h, hm])
      · exact Or.inr (by rw [List.foldl_cons, h, hm]; exact List.mem_cons_self y ys)
    · exact Or.inr (List.mem_cons_of_mem y h)

theorem listMaxInt_mem {l : List ℤ} (h : l ≠ []) : listMaxInt l ∈ l := by
  cases l with
  | nil => exact absurd rfl h
  | cons y ys =>
    rcases foldl_max_mem ys y with h' | h'
    · rw [listMaxInt, h']; exact List.mem_cons_self y ys
    · exact List.mem_cons_of_mem y h'

/-- the `customer_id` of every joined row is the id of a row of the
customers table (inner-join construction). -/
theorem sales_customer_id_mem {cs : List Customer} {ps : List Product}
    {ts : List Transaction} {r : SalesRecord} (h : r ∈ sales_data cs ps ts) :
    r.customer_id ∈ cs.map (·.customer_id) := by
  rcases mem_sales_data.mp h with ⟨t, _ht, c, hc, p, _hp, hcid, _hpid, rfl⟩
  exact List.mem_map.mpr ⟨c, hc, hcid⟩

/-- with unique customer ids, filtering the customers table by a present
id yields a single row. -/
theorem filter_customer_singleton {cs : List Customer} {k : ℕ}
    (h : (cs.map (·.customer_id)).Nodup) (hk : k ∈ cs.map (·.customer_id)) :
    ∃ c : Customer, cs.filter (fun c => c.customer_id = k) = [c] ∧ c.customer_id = k := by
  induction cs with
  | nil => simp at hk
  | cons a l ih =>
    rw [List.map_cons, List.nodup_cons] at h
    rcases h with ⟨hnotin, hnd⟩
    by_cases ha : a.customer_id = k
    · refine ⟨a, ?_, ha⟩
      have hnil : l.filter (fun c => c.customer_id = k) = [] := by
        rw [List.filter_eq_nil_iff]
        intro c hc hck
        rw [decide_eq_true_eq] at hck
        exact hnotin (ha ▸ hck ▸ List.mem_map.mpr ⟨c, hc, rfl⟩)
      rw [List.filter_cons, if_pos (by rw [decide_eq_true_eq]; exact ha), hnil]
    · have hk' : k ∈ l.map (·.customer_id) := by
        rcases List.mem_cons.mp hk with h' | h'
        · exact absurd h'.symm ha
        · exact h'
      rcases ih hnd hk' with ⟨c, hc, hck⟩
      refine ⟨c, ?_, hck⟩
      rw [List.filter_cons, if_neg (by rw [decide_eq_true_eq]; exact ha), hc]

/-- the id column of the grouped table is exactly the sorted distinct key
list. -/
theorem rfm_base_ids (cs : List Customer) (ps : List Product) (ts : List Transaction) :
    (rfm_base cs ps ts).map (·.customer_id) =
      group_keys (sales_data cs ps ts) (·.customer_id) := by
  unfold rfm_base
  rw [List.map_map]
  exact (List.map_congr_left fun k _ => rfl).trans (List.map_id _)

/-- under unique customer ids, re-attaching customer attributes (line 103)
keeps exactly one row per grouped customer, in order: any column of the
merged table that comes from the grouped table equals that column of the
grouped table. -/
theorem rfm_map_base {β : Type} (cs : List Customer) (ps : List Product)
    (ts : List Transaction) (h : (cs.map (·.customer_id)).Nodup)
    (proj : RFMRow → β) (f : RFMBase → β)
    (hpf : ∀ (b : RFMBase) (c : Customer),
      proj { customer_id := b.customer_id, recency := b.recency, frequency := b.frequency,
             monetary := b.monetary, customer_age := c.customer_age, gender := c.gender,
             location := c.location } = f b) :
    (rfm cs ps ts).map proj = (rfm_base cs ps ts).map f := by
  unfold rfm
  rw [List.map_flatMap]
  have hstep : ∀ b ∈ rfm_base cs ps ts,
      ((cs.filter fun c => c.customer_id = b.customer_id).map fun c =>
        ({ customer_id := b.customer_id, recency := b.recency, frequency := b.frequency,
           monetary := b.monetary, customer_age := c.customer_age, gender := c.gender,
           location := c.location } : RFMRow)).map proj = [f b] := by
    intro b hb
    have hbmem : b.customer_id ∈ cs.map (·.customer_id) := by
      have : b.customer_id ∈ (rfm_base cs ps ts).map (·.customer_id) :=
        List.mem_map.mpr ⟨b, hb, rfl⟩
      rw [rfm_base_ids] at this
      rcases List.mem_map.mp (mem_group_keys.mp this) with ⟨r, hr, hrid⟩
      exact hrid ▸ sales_customer_id_mem hr
    rcases filter_customer_singleton h hbmem with ⟨c, hc, _⟩
    rw [hc, List.map_cons, List.map_nil, List.map_cons, List.map_nil, hpf]
  revert hstep
  generalize rfm_base cs ps ts = B
  intro hstep
  induction B with
  | nil => rfl
  | cons b bs ih =>
    rw [List.flatMap_cons, List.map_cons, hstep b (List.mem_cons_self b bs),
      ih (fun b' hb' => hstep b' (List.mem_cons_of_mem b hb')), List.singleton_append]

theorem rfm_ids (cs : List Customer) (ps : List Product) (ts : List Transaction)
    (h : (cs.map (·.customer_id)).Nodup) :
    (rfm cs ps ts).map (·.customer_id) = (rfm_base cs ps ts).map (·.customer_id) :=
  rfm_map_base cs ps ts h _ _ fun _ _ => rfl

/-! ## Partition-of-the-population lemmas -/

theorem sum_map_filter_not_add {α M : Type} [AddCommMonoid M] (l : List α)
    (p : α → Bool) (f : α → M) :
    ((l.filter p).map f).sum + ((l.filter fun a => !p a).map f).sum = (l.map f).sum := by
  induction l with
  | nil => simp
  | cons a t ih =>
    by_cases hp : p a
    · rw [List.filter_cons_of_pos hp, List.filter_cons_of_neg (by simp [hp]),
        List.map_cons, List.sum_cons, List.map_cons, List.sum_cons, add_assoc, ih]
    · rw [List.filter_cons_of_neg hp, List.filter_cons_of_pos (by simp [Bool.eq_false_iff.mpr hp]),
        List.map_cons, List.sum_cons, List.map_cons, List.sum_cons, add_left_comm, ih]

/-- grouping a table by a covering, duplicate-free key list and summing a
column group-wise gives the column's grand total: the groups partition
the rows. -/
theorem groups_sum {α K M : Type} [DecidableEq K] [AddCommMonoid M]
    (key : α → K) (f : α → M) (keys : List K) (l : List α)
    (hnd : keys.Nodup) (hcov : ∀ a ∈ l, key a ∈ keys) :
    (keys.map fun k => ((l.filter fun a => key a = k).map f).sum).sum = (l.map f).sum := by
  induction keys generalizing l with
  | nil =>
    have hl : l = [] := by
      cases l with
      | nil => rfl
      | cons a t => exact absurd (hcov a (List.mem_cons_self a t)) (List.not_mem_nil _)
    subst hl; rfl
  | cons k ks ih =>
    rw [List.nodup_cons] at hnd
    rcases hnd with ⟨hknotin, hndks⟩
    rw [List.map_cons, List.sum_cons]
    have hrest : ∀ k' ∈ ks,
        (l.filter fun a => key a = k') =
        ((l.filter fun a => !(decide (key a = k))).filter fun a => key a = k') := by
      intro k' hk'
      rw [List.filter_filter]
      refine (List.filter_congr ?_).symm
      intro a _
      by_cases h' : key a = k'
      · have hk'k : ¬ k' = k := fun hkk => hknotin (hkk ▸ hk')
        simp [h', hk'k]
      · simp [h']
    have hmap : (ks.map fun k' => ((l.filter fun a => key a = k').map f).sum) =
        (ks.map fun k' =>
          (((l.filter fun a => !(decide (key a = k))).filter fun a => key a = k').map f).sum) :=
      List.map_congr_left fun k' hk' => by rw [hrest k' hk']
    rw [hmap, ih (l.filter fun a => !(decide (key a = k))) hndks ?_]
    · exact sum_map_filter_not_add l _ f
    · intro a ha
      rw [List.mem_filter, Bool.not_eq_true', decide_eq_false_iff_not] at ha
      rcases hcov a ha.1 |> List.mem_cons.mp with h' | h'
      · exact absurd h' ha.2
      · exact h'

theorem sum_map_one {α : Type} (l : List α) : (l.map fun _ => (1 : ℕ)).sum = l.length := by
  induction l with
  | nil => rfl
  | cons a t ih => simp [ih, Nat.add_comm]

/-- counting version of `groups_sum`: group sizes add up to the number of
rows. -/
theorem groups_length {α K : Type} [DecidableEq K]
    (key : α → K) (keys : List K) (l : List α)
    (hnd : keys.Nodup) (hcov : ∀ a ∈ l, key a ∈ keys) :
    (keys.map fun k => (l.filter fun a => key a = k).length).sum = l.length := by
  have h := groups_sum key (fun _ => (1 : ℕ)) keys l hnd hcov
  rw [sum_map_one] at h
  rw [← h]
  exact congrArg List.sum (List.map_congr_left fun k _ => (sum_map_one _).symm)

/-! ## Claims C1, C2, C5, C8 -/

/-- C1: for every joined sales dataset, the RFM scorer produces exactly
one RFM record per distinct customer identifier present in the sales
data — no customer of the joined data is missing from the RFM table and
no customer id occurs in two RFM rows — under the precondition that
customer ids are unique in the customers input. -/
theorem c1_one_rfm_row_per_customer (cs : List Customer) (ps : List Product)
    (ts : List Transaction) (h : (cs.map (·.customer_id)).Nodup) :
    ((rfm cs ps ts).map (·.customer_id)).Nodup ∧
    ∀ k : ℕ, k ∈ (sales_data cs ps ts).map (·.customer_id) ↔
      k ∈ (rfm cs ps ts).map (·.customer_id) := by
  rw [rfm_ids cs ps ts h, rfm_base_ids cs ps ts]
  exact ⟨nodup_group_keys _ _, fun k => mem_group_keys.symm⟩

/-- C2: recency of every RFM row equals the single global snapshot date
(max transaction date over ALL joined rows, plus one day) minus that
customer's own maximum transaction date, in whole days; consequently it
is non-negative. -/
theorem c2_recency_global_snapshot (cs : List Customer) (ps : List Product)
    (ts : List Transaction) :
    snapshot_date cs ps ts =
      listMaxInt ((sales_data cs ps ts).map (·.transaction_date)) + 1 ∧
    ∀ row ∈ rfm cs ps ts,
      row.recency = snapshot_date cs ps ts -
        listMaxInt (((sales_data cs ps ts).filter
          fun r => r.customer_id = row.customer_id).map (·.transaction_date)) ∧
      0 ≤ row.recency := by
  refine ⟨rfl, ?_⟩
  intro row hrow
  rcases List.mem_flatMap.mp hrow with ⟨b, hb, hrowmem⟩
  rcases List.mem_map.mp hrowmem with ⟨c, _hc, hrc⟩
  rcases List.mem_map.mp hb with ⟨k, hk, hbk⟩
  have hrowid : row.customer_id = k := by rw [← hrc, ← hbk]
  have hrowrec : row.recency =
      snapshot_date cs ps ts - listMaxInt (((sales_data cs ps ts).filter
        fun r => r.customer_id = k).map (·.transaction_date)) := by
    rw [← hrc, ← hbk]
  constructor
  · rw [hrowrec, hrowid]
  · rcases List.mem_map.mp (mem_group_keys.mp hk) with ⟨r, hr, hrk⟩
    have hrg : r ∈ (sales_data cs ps ts).filter fun r' => r'.customer_id = k := by
      rw [List.mem_filter, decide_eq_true_eq]
      exact ⟨hr, hrk⟩
    have hne : ((sales_data cs ps ts).filter
        fun r' => r'.customer_id = k).map (·.transaction_date) ≠ [] := by
      intro hnil
      exact absurd (List.mem_map_of_mem (·.transaction_date) hrg) (hnil ▸ List.not_mem_nil _)
    have hsub : ((sales_data cs ps ts).filter fun r' => r'.customer_id = k) ⊆
        sales_data cs ps ts := fun x hx => (List.mem_filter.mp hx).1
    have hmemdates : listMaxInt (((sales_data cs ps ts).filter
        fun r' => r'.customer_id = k).map (·.transaction_date)) ∈
        (sales_data cs ps ts).map (·.transaction_date) :=
      List.map_subset _ hsub (listMaxInt_mem hne)
    have hle := le_listMaxInt hmemdates
    rw [hrowrec]
    unfold snapshot_date
    omega

/-- C5: the per-customer frequency counts of the RFM table add up to the
total number of joined sales rows (the per-customer grouping partitions
the joined records); customer ids are assumed unique in the customers
input, as in the data model. -/
theorem c5_frequency_partition (cs : List Customer) (ps : List Product)
    (ts : List Transaction) (h : (cs.map (·.customer_id)).Nodup) :
    ((rfm cs ps ts).map (·.frequency)).sum = (sales_data cs ps ts).length := by
  rw [rfm_map_base cs ps ts h (·.frequency) (·.frequency) fun _ _ => rfl]
  have h1 : (rfm_base cs ps ts).map (·.frequency) =
      (group_keys (sales_data cs ps ts) (·.customer_id)).map
        fun k => ((sales_data cs ps ts).filter fun r => r.customer_id = k).length := by
    unfold rfm_base
    rw [List.map_map]
    exact List.map_congr_left fun k _ => rfl
  rw [h1]
  exact groups_length (fun r : SalesRecord => r.customer_id)
    (group_keys (sales_data cs ps ts) (·.customer_id)) (sales_data cs ps ts)
    (nodup_group_keys _ _)
    fun r hr => mem_group_keys.mpr (List.mem_map.mpr ⟨r, hr, rfl⟩)

/-- C8: with unique transaction ids, a transaction appears in the joined
sales data iff its customer id occurs in the customers table and its
product id occurs in the products table; unmatched transactions are
silently dropped (the join is a total function — no error path), matched
ones are all retained. -/
theorem c8_inner_join_semantics (cs : List Customer) (ps : List Product)
    (ts : List Transaction) (ht : (ts.map (·.transaction_id)).Nodup) :
    ∀ t ∈ ts,
      (t.customer_id ∈ cs.map (·.customer_id) ∧ t.product_id ∈ ps.map (·.product_id)) ↔
      ∃ r ∈ sales_data cs ps ts, r.transaction_id = t.transaction_id := by
  intro t htmem
  constructor
  · rintro ⟨hc, hp⟩
    rcases List.mem_map.mp hc with ⟨c, hcmem, hcid⟩
    rcases List.mem_map.mp hp with ⟨p, hpmem, hpid⟩
    exact ⟨_, mem_sales_data.mpr ⟨t, htmem, c, hcmem, p, hpmem, hcid, hpid, rfl⟩, rfl⟩
  · rintro ⟨r, hr, hrid⟩
    rcases mem_sales_data.mp hr with ⟨t', ht', c, hcmem, p, hpmem, hcid, hpid, rfl⟩
    have htt : t' = t :=
      List.inj_on_of_nodup_map ht ht' htmem hrid
    subst htt
    exact ⟨List.mem_map.mpr ⟨c, hcmem, hcid⟩, List.mem_map.mpr ⟨p, hpmem, hpid⟩⟩

/-! ## Lemmas about sorting and interpolated quantiles -/

theorem sortRat_perm (l : List ℚ) : (sortRat l).Perm l :=
  List.perm_insertionSort (· ≤ ·) l

theorem sortRat_sorted (l : List ℚ) : (sortRat l).Sorted (· ≤ ·) :=
  List.sorted_insertionSort (· ≤ ·) l

theorem sortRat_length (l : List ℚ) : (sortRat l).length = l.length :=
  (sortRat_perm l).length_eq

/-- a sorted list of distinct values is strictly sorted. -/
theorem sortRat_strictSorted {l : List ℚ} (h : l.Nodup) :
    (sortRat l).Pairwise (· < ·) := by
  have hnd : (sortRat l).Nodup := (sortRat_perm l).nodup_iff.mpr h
  have hs := sortRat_sorted l
  exact (hs.and hnd).imp fun hab => lt_of_le_of_ne hab.1 hab.2

/-- index-monotonicity of a `≤`-sorted list. -/
theorem sorted_getD_le {s : List ℚ} (hs : s.Sorted (· ≤ ·)) {i j : ℕ}
    (hij : i ≤ j) (hj : j < s.length) : s.getD i 0 ≤ s.getD j 0 := by
  have hi : i < s.length := lt_of_le_of_lt hij hj
  rw [List.getD_eq_getElem _ _ hi, List.getD_eq_getElem _ _ hj]
  rcases Nat.lt_or_ge i j with h | h
  · exact List.pairwise_iff_getElem.mp hs i j hi hj h
  · have hji : i = j := le_antisymm hij h
    subst hji
    exact le_refl _

/-- index-monotonicity of a strictly sorted list. -/
theorem strictSorted_getD_lt {s : List ℚ} (hs : s.Pairwise (· < ·)) {i j : ℕ}
    (hij : i < j) (hj : j < s.length) : s.getD i 0 < s.getD j 0 := by
  have hi : i < s.length := lt_trans hij hj
  rw [List.getD_eq_getElem _ _ hi, List.getD_eq_getElem _ _ hj]
  exact List.pairwise_iff_getElem.mp hs i j hi hj hij

/-- the head of the sorted column is any minimal value of the column. -/
theorem sortRat_head_of_min {l : List ℚ} {v : ℚ} (hv : v ∈ l)
    (hmin : ∀ x ∈ l, v ≤ x) : (sortRat l).getD 0 0 = v := by
  have hvs : v ∈ sortRat l := (sortRat_perm l).mem_iff.mpr hv
  rcases List.mem_iff_getElem.mp hvs with ⟨j, hj, hjv⟩
  have h0 : 0 < (sortRat l).length := lt_of_le_of_lt (Nat.zero_le j) hj
  have h1 : (sortRat l).getD 0 0 ≤ v := by
    have hle := sorted_getD_le (sortRat_sorted l) (Nat.zero_le j) hj
    rw [List.getD_eq_getElem _ _ hj, hjv] at hle
    exact hle
  have h2 : v ≤ (sortRat l).getD 0 0 := by
    rw [List.getD_eq_getElem _ _ h0]
    exact hmin _ ((sortRat_perm l).mem_iff.mp (List.getElem_mem h0))
  exact le_antisymm h1 h2

/-- every column value is at most the last entry of the sorted column. -/
theorem le_sortRat_last {l : List ℚ} {v : ℚ} (hv : v ∈ l) :
    v ≤ (sortRat l).getD (l.length - 1) 0 := by
  have hvs : v ∈ sortRat l := (sortRat_perm l).mem_iff.mpr hv
  rcases List.mem_iff_getElem.mp hvs with ⟨j, hj, hjv⟩
  have hlen : (sortRat l).length = l.length := sortRat_length l
  have hne : 0 < l.length := hlen ▸ lt_of_le_of_lt (Nat.zero_le j) hj
  have hlast : l.length - 1 < (sortRat l).length := by omega
  have hle := sorted_getD_le (sortRat_sorted l) (show j ≤ l.length - 1 by omega) hlast
  rw [List.getD_eq_getElem _ _ hj, hjv] at hle
  exact hle

theorem quantileSorted_zero (s : List ℚ) : quantileSorted s 0 = s.getD 0 0 := by
  simp [quantileSorted]

theorem quantileSorted_one {s : List ℚ} (h : s ≠ []) :
    quantileSorted s 1 = s.getD (s.length - 1) 0 := by
  have hlen : 1 ≤ s.length := Nat.one_le_iff_ne_zero.mpr (fun h0 => h (List.length_eq_zero.mp h0))
  unfold quantileSorted
  have hcast : (s.length : ℚ) - 1 = ((s.length - 1 : ℕ) : ℚ) := by
    push_cast [hlen]
    ring
  rw [one_mul, hcast, Nat.floor_natCast]
  ring_nf

/-- position and interpolation bounds for the quantile of a strictly
sorted nonempty column: writing `i0 = ⌊q*(n-1)⌋`, the quantile lies in
`[s[i0], s[i0+1])`. -/
theorem quantileSorted_bounds {s : List ℚ} (hs : s.Pairwise (· < ·))
    (hne : s ≠ []) {q : ℚ} (h0 : 0 ≤ q) (h1 : q ≤ 1) :
    ⌊q * ((s.length : ℚ) - 1)⌋₊ < s.length ∧
    s.getD ⌊q * ((s.length : ℚ) - 1)⌋₊ 0 ≤ quantileSorted s q ∧
    (⌊q * ((s.length : ℚ) - 1)⌋₊ + 1 < s.length →
      quantileSorted s q < s.getD (⌊q * ((s.length : ℚ) - 1)⌋₊ + 1) 0) := by
  have hn : 1 ≤ s.length := Nat.one_le_iff_ne_zero.mpr
    (fun h' => hne (List.length_eq_zero.mp h'))
  set n := s.length with hndef
  set h : ℚ := q * ((n : ℚ) - 1) with hdef
  have hh0 : 0 ≤ h := mul_nonneg h0 (by
    have : (1 : ℚ) ≤ (n : ℚ) := by exact_mod_cast hn
    linarith)
  have hhle : h ≤ (n : ℚ) - 1 := by
    have hn1 : (0 : ℚ) ≤ (n : ℚ) - 1 := by
      have : (1 : ℚ) ≤ (n : ℚ) := by exact_mod_cast hn
      linarith
    calc h = q * ((n : ℚ) - 1) := hdef
    _ ≤ 1 * ((n : ℚ) - 1) := mul_le_mul_of_nonneg_right h1 hn1
    _ = (n : ℚ) - 1 := one_mul _
  set i0 : ℕ := ⌊h⌋₊ with hi0def
  have hi0n : i0 < n := by
    have hcast : (n : ℚ) - 1 = ((n - 1 : ℕ) : ℚ) := by push_cast [hn]; ring
    have : i0 ≤ n - 1 := by
      rw [hi0def, ← Nat.floor_natCast (α := ℚ) (n - 1)]
      exact Nat.floor_mono (hcast ▸ hhle)
    omega
  have hg0 : 0 ≤ h - (i0 : ℚ) := sub_nonneg.mpr (Nat.floor_le hh0)
  have hg1 : h - (i0 : ℚ) < 1 := by
    have := Nat.lt_floor_add_one h
    rw [← hi0def] at this
    linarith
  refine ⟨hi0n, ?_, ?_⟩
  · unfold quantileSorted
    rw [← hdef, ← hi0def]
    rcases Nat.lt_or_ge (i0 + 1) n with hlt | hge
    · have hd : 0 < s.getD (i0 + 1) 0 - s.getD i0 0 := by
        exact sub_pos.mpr (strictSorted_getD_lt hs (Nat.lt_succ_self i0) hlt)
      nlinarith
    · have hi0eq : (h : ℚ) = (i0 : ℚ) := by
        have h1' : (i0 : ℚ) ≤ h := Nat.floor_le hh0
        have h2' : n - 1 ≤ i0 := by omega
        have h3' : ((n : ℚ) - 1) ≤ (i0 : ℚ) := by
          have : ((n - 1 : ℕ) : ℚ) ≤ (i0 : ℚ) := by exact_mod_cast h2'
          push_cast [hn] at this
          linarith
        linarith
      rw [hi0eq]
      ring_nf
      exact le_refl _
  · intro hlt
    unfold quantileSorted
    rw [← hdef, ← hi0def]
    have hd : 0 < s.getD (i0 + 1) 0 - s.getD i0 0 := by
      exact sub_pos.mpr (strictSorted_getD_lt hs (Nat.lt_succ_self i0) hlt)
    nlinarith

/-- the interpolated quantile is monotone in `q` on a strictly sorted
column. -/
theorem quantileSorted_mono {s : List ℚ} (hs : s.Pairwise (· < ·))
    (hne : s ≠ []) {q q' : ℚ} (h0 : 0 ≤ q) (hqq : q ≤ q') (h1 : q' ≤ 1) :
    quantileSorted s q ≤ quantileSorted s q' := by
  have hn : 1 ≤ s.length := Nat.one_le_iff_ne_zero.mpr
    (fun h' => hne (List.length_eq_zero.mp h'))
  have h0' : 0 ≤ q' := le_trans h0 hqq
  have h1q : q ≤ 1 := le_trans hqq h1
  obtain ⟨hi0n, hlo, hhi⟩ := quantileSorted_bounds hs hne h0 h1q
  obtain ⟨hi0n', hlo', hhi'⟩ := quantileSorted_bounds hs hne h0' h1
  set i0 : ℕ := ⌊q * ((s.length : ℚ) - 1)⌋₊ with hi0def
  set i0' : ℕ := ⌊q' * ((s.length : ℚ) - 1)⌋₊ with hi0'def
  have hii : i0 ≤ i0' := Nat.floor_mono (by
    have hn1 : (0 : ℚ) ≤ (s.length : ℚ) - 1 := by
      have : (1 : ℚ) ≤ (s.length : ℚ) := by exact_mod_cast hn
      linarith
    exact mul_le_mul_of_nonneg_right hqq hn1)
  rcases Nat.lt_or_ge i0 i0' with hlt | hge
  · have hstep : i0 + 1 < s.length ∨ i0 + 1 = s.length := by omega
    have hi1n : i0 + 1 < s.length := by omega
    have h2 : quantileSorted s q < s.getD (i0 + 1) 0 := hhi hi1n
    have h3 : s.getD (i0 + 1) 0 ≤ s.getD i0' 0 := by
      exact sorted_getD_le (hs.imp le_of_lt) hlt hi0n'
    exact le_trans (le_of_lt h2) (le_trans h3 hlo')
  · have heq : i0 = i0' := le_antisymm hii hge
    unfold quantileSorted
    rw [← hi0'def, ← heq]
    have hhq : q * ((s.length : ℚ) - 1) ≤ q' * ((s.length : ℚ) - 1) := by
      have hn1 : (0 : ℚ) ≤ (s.length : ℚ) - 1 := by
        have : (1 : ℚ) ≤ (s.length : ℚ) := by exact_mod_cast hn
        linarith
      exact mul_le_mul_of_nonneg_right hqq hn1
    rcases Nat.lt_or_ge (i0 + 1) s.length with hlt' | hge'
    · have hd : 0 ≤ s.getD (i0 + 1) 0 - s.getD i0 0 := by
        exact sub_nonneg.mpr (le_of_lt (strictSorted_getD_lt hs (Nat.lt_succ_self i0) hlt'))
      nlinarith
    · have hq_eq : q * ((s.length : ℚ) - 1) = (i0 : ℚ) ∧
        q' * ((s.length : ℚ) - 1) = (i0 : ℚ) := by
        have hfl : (i0 : ℚ) ≤ q * ((s.length : ℚ) - 1) :=
          hi0def ▸ Nat.floor_le (mul_nonneg h0 (by
            have : (1 : ℚ) ≤ (s.length : ℚ) := by exact_mod_cast hn
            linarith))
        have hfl' : (i0 : ℚ) ≤ q' * ((s.length : ℚ) - 1) := le_trans hfl hhq
        have hub' : q' * ((s.length : ℚ) - 1) ≤ (s.length : ℚ) - 1 := by
          have hn1 : (0 : ℚ) ≤ (s.length : ℚ) - 1 := by
            have : (1 : ℚ) ≤ (s.length : ℚ) := by exact_mod_cast hn
            linarith
          nlinarith
        have hcast : ((s.length : ℚ) - 1) ≤ (i0 : ℚ) := by
          have h2' : s.length - 1 ≤ i0 := by omega
          have : ((s.length - 1 : ℕ) : ℚ) ≤ (i0 : ℚ) := by exact_mod_cast h2'
          push_cast [hn] at this
          linarith
        constructor
        · linarith [le_trans (le_trans hhq hub') hcast]
        · linarith [le_trans hub' hcast]
      rw [hq_eq.1, hq_eq.2]
      simp [Nat.floor_natCast]

/-- the interpolated quantile is strictly monotone in `q` on a strictly
sorted column with at least two entries. -/
theorem quantileSorted_strictMono {s : List ℚ} (hs : s.Pairwise (· < ·))
    (hn2 : 2 ≤ s.length) {q q' : ℚ} (h0 : 0 ≤ q) (hqq : q < q') (h1 : q' ≤ 1) :
    quantileSorted s q < quantileSorted s q' := by
  have hne : s ≠ [] := by
    intro h'
    rw [h'] at hn2
    exact absurd hn2 (by norm_num)
  have h0' : 0 ≤ q' := le_trans h0 (le_of_lt hqq)
  have h1q : q ≤ 1 := le_trans (le_of_lt hqq) h1
  obtain ⟨hi0n, hlo, hhi⟩ := quantileSorted_bounds hs hne h0 h1q
  obtain ⟨hi0n', hlo', hhi'⟩ := quantileSorted_bounds hs hne h0' h1
  set i0 : ℕ := ⌊q * ((s.length : ℚ) - 1)⌋₊ with hi0def
  set i0' : ℕ := ⌊q' * ((s.length : ℚ) - 1)⌋₊ with hi0'def
  have hn1 : (1 : ℚ) ≤ ((s.length : ℚ) - 1) := by
    have : (2 : ℚ) ≤ (s.length : ℚ) := by exact_mod_cast hn2
    linarith
  have hhq : q * ((s.length : ℚ) - 1) < q' * ((s.length : ℚ) - 1) :=
    mul_lt_mul_of_pos_right hqq (by linarith)
  rcases Nat.lt_or_ge i0 i0' with hlt | hge
  · have hi1n : i0 + 1 < s.length := by omega
    have h2 : quantileSorted s q < s.getD (i0 + 1) 0 := hhi hi1n
    have h3 : s.getD (i0 + 1) 0 ≤ s.getD i0' 0 := by
      exact sorted_getD_le (hs.imp le_of_lt) hlt hi0n'
    exact lt_of_lt_of_le h2 (le_trans h3 hlo')
  · have heq : i0 = i0' := le_antisymm (Nat.floor_mono (le_of_lt hhq)) hge
    have hi1n : i0 + 1 < s.length := by
      rcases Nat.lt_or_ge (i0 + 1) s.length with h' | h'
      · exact h'
      · exfalso
        have hfl : (i0 : ℚ) ≤ q * ((s.length : ℚ) - 1) := Nat.floor_le (by positivity)
        have hub : q' * ((s.length : ℚ) - 1) ≤ (s.length : ℚ) - 1 := by nlinarith
        have hcast : ((s.length : ℚ) - 1) ≤ (i0 : ℚ) := by
          have h2' : s.length - 1 ≤ i0 := by omega
          have h3' : ((s.length - 1 : ℕ) : ℚ) ≤ (i0 : ℚ) := by exact_mod_cast h2'
          have hn1' : 1 ≤ s.length := by omega
          push_cast [hn1'] at h3'
          linarith
        linarith
    unfold quantileSorted
    rw [← hi0'def, ← heq]
    have hd : 0 < s.getD (i0 + 1) 0 - s.getD i0 0 := by
      exact sub_pos.mpr (strictSorted_getD_lt hs (Nat.lt_succ_self i0) hi1n)
    nlinarith

/-! ## Counting values against the bin edges -/

/-- in a strictly sorted list, the number of entries `≤ x` for any `x`
between the `i0`-th entry (inclusive) and the next entry (exclusive) is
`i0 + 1`. -/
theorem countP_le_strictSorted {s : List ℚ} (hs : s.Pairwise (· < ·))
    {i0 : ℕ} (hi0 : i0 < s.length) {x : ℚ} (hlo : s.getD i0 0 ≤ x)
    (hhi : i0 + 1 < s.length → x < s.getD (i0 + 1) 0) :
    s.countP (fun v => decide (v ≤ x)) = i0 + 1 := by
  induction s generalizing i0 with
  | nil => exact absurd hi0 (Nat.not_lt_zero i0)
  | cons a t ih =>
    rcases List.pairwise_cons.mp hs with ⟨hat, ht⟩
    cases i0 with
    | zero =>
      have ha : a ≤ x := by simpa using hlo
      have hzero : t.countP (fun v => decide (v ≤ x)) = 0 := by
        rw [List.countP_eq_zero]
        intro v hv
        cases t with
        | nil => cases hv
        | cons b t' =>
          have hxa : x < b := by
            have := hhi (by simp only [List.length_cons]; omega)
            simpa using this
          have hbv : b ≤ v := by
            rcases List.mem_cons.mp hv with rfl | hv'
            · exact le_refl v
            · exact le_of_lt (List.rel_of_pairwise_cons ht hv')
          simp only [decide_eq_true_eq]
          intro hvx
          linarith
      rw [List.countP_cons_of_pos _ _ (by simpa using ha), hzero]
    | succ m =>
      have hm : m < t.length := by simpa [List.length_cons] using hi0
      have hlo' : t.getD m 0 ≤ x := by
        simpa using hlo
      have hhi' : m + 1 < t.length → x < t.getD (m + 1) 0 := by
        intro h'
        have := hhi (by simp only [List.length_cons]; omega)
        simpa using this
      have ha : a ≤ x := by
        have hat' : a < t.getD m 0 := by
          rw [List.getD_eq_getElem _ _ hm]
          exact hat _ (List.getElem_mem hm)
        linarith
      rw [List.countP_cons_of_pos _ _ (by simpa using ha), ih ht hm hlo' hhi']

/-- splitting a count over a predicate that is the disjoint union of two
others. -/
theorem countP_split {α : Type} (l : List α) (p q r : α → Bool)
    (hunion : ∀ a ∈ l, p a = (q a || r a)) (hdisj : ∀ a ∈ l, ¬(q a = true ∧ r a = true)) :
    l.countP p = l.countP q + l.countP r := by
  induction l with
  | nil => rfl
  | cons a t ih =>
    have hu := hunion a (List.mem_cons_self a t)
    have hd := hdisj a (List.mem_cons_self a t)
    have ht' := ih (fun b hb => hunion b (List.mem_cons_of_mem a hb))
      (fun b hb => hdisj b (List.mem_cons_of_mem a hb))
    rw [List.countP_cons, List.countP_cons, List.countP_cons, ht']
    cases hq : q a <;> cases hr : r a <;>
      simp [hu, hq, hr] at hd ⊢ <;> omega

/-- counting all entries splits into those `≤ y` and those `> y`. -/
theorem countP_le_add_countP_gt {s : List ℚ} (y : ℚ) :
    s.countP (fun v => decide (v ≤ y)) + s.countP (fun v => decide (y < v)) = s.length := by
  have h := countP_split s (fun _ => true) (fun v => decide (v ≤ y)) (fun v => decide (y < v))
    (by
      intro a _
      by_cases h' : a ≤ y
      · simp [h']
      · simp [h', lt_of_not_le h'])
    (by
      intro a _
      simp only [decide_eq_true_eq]
      rintro ⟨h1, h2⟩
      linarith)
  rw [List.countP_true] at h
  omega

/-! ## The bin index of a value among six edges -/

theorem searchsortedLeft_six (e0 e1 e2 e3 e4 e5 v : ℚ) :
    searchsortedLeft [e0, e1, e2, e3, e4, e5] v =
      if v ≤ e0 then 0 else if v ≤ e1 then 1 else if v ≤ e2 then 2
      else if v ≤ e3 then 3 else if v ≤ e4 then 4 else if v ≤ e5 then 5 else 6 := by
  simp only [searchsortedLeft]
  split_ifs <;> rfl

/-- with edges spanning the value (`e0 ≤ v ≤ e5`), the adjusted bin index
is between 1 and 5. -/
theorem qcutIdx_mem15 {e0 e1 e2 e3 e4 e5 v : ℚ} (hlo : e0 ≤ v) (hhi : v ≤ e5) :
    1 ≤ qcutIdx [e0, e1, e2, e3, e4, e5] v ∧ qcutIdx [e0, e1, e2, e3, e4, e5] v ≤ 5 := by
  unfold qcutIdx
  by_cases hv : v = [e0, e1, e2, e3, e4, e5].headD 0
  · simp [hv]
  · rw [if_neg hv, searchsortedLeft_six]
    have hlo' : ¬(v ≤ e0) := by
      simp only [List.headD_cons] at hv
      exact fun h' => hv (le_antisymm h' hlo)
    split_ifs <;> omega

/-- characterization of bin 1: everything up to the first 20% edge
(values equal to the minimum edge included by `include_lowest`). -/
theorem qcutIdx_eq_one_iff {e0 e1 e2 e3 e4 e5 v : ℚ}
    (h01 : e0 ≤ e1) (hlo : e0 ≤ v) :
    qcutIdx [e0, e1, e2, e3, e4, e5] v = 1 ↔ v ≤ e1 := by
  unfold qcutIdx
  by_cases hv : v = [e0, e1, e2, e3, e4, e5].headD 0
  · simp only [List.headD_cons] at hv
    subst hv
    simp [h01]
  · rw [if_neg hv, searchsortedLeft_six]
    have hlo' : ¬(v ≤ e0) := by
      simp only [List.headD_cons] at hv
      exact fun h' => hv (le_antisymm h' hlo)
    split_ifs <;> simp_all

/-- characterization of bin 2: the interval `(e1, e2]`. -/
theorem qcutIdx_eq_two_iff {e0 e1 e2 e3 e4 e5 v : ℚ}
    (hmono : e0 ≤ e1 ∧ e1 ≤ e2 ∧ e2 ≤ e3 ∧ e3 ≤ e4 ∧ e4 ≤ e5) (hlo : e0 ≤ v) :
    qcutIdx [e0, e1, e2, e3, e4, e5] v = 2 ↔ e1 < v ∧ v ≤ e2 := by
  obtain ⟨h01, h12, h23, h34, h45⟩ := hmono
  unfold qcutIdx
  simp only [List.headD_cons]
  by_cases hv : v = e0
  · rw [if_pos hv]
    exact iff_of_false (by norm_num) (by rintro ⟨ha, hb⟩; linarith)
  · rw [if_neg hv, searchsortedLeft_six]
    have hlo' : ¬(v ≤ e0) := fun h' => hv (le_antisymm h' hlo)
    split_ifs with h1 h2 h3 h4 h5 <;>
      first
        | exact absurd h1 hlo'
        | exact iff_of_true (by norm_num) ⟨by linarith, by linarith⟩
        | exact iff_of_false (by norm_num) (by rintro ⟨ha, hb⟩; linarith)

/-- characterization of bin 3: the interval `(e2, e3]`. -/
theorem qcutIdx_eq_three_iff {e0 e1 e2 e3 e4 e5 v : ℚ}
    (hmono : e0 ≤ e1 ∧ e1 ≤ e2 ∧ e2 ≤ e3 ∧ e3 ≤ e4 ∧ e4 ≤ e5) (hlo : e0 ≤ v) :
    qcutIdx [e0, e1, e2, e3, e4, e5] v = 3 ↔ e2 < v ∧ v ≤ e3 := by
  obtain ⟨h01, h12, h23, h34, h45⟩ := hmono
  unfold qcutIdx
  simp only [List.headD_cons]
  by_cases hv : v = e0
  · rw [if_pos hv]
    exact iff_of_false (by norm_num) (by rintro ⟨ha, hb⟩; linarith)
  · rw [if_neg hv, searchsortedLeft_six]
    have hlo' : ¬(v ≤ e0) := fun h' => hv (le_antisymm h' hlo)
    split_ifs with h1 h2 h3 h4 h5 <;>
      first
        | exact absurd h1 hlo'
        | exact iff_of_true (by norm_num) ⟨by linarith, by linarith⟩
        | exact iff_of_false (by norm_num) (by rintro ⟨ha, hb⟩; linarith)

/-- characterization of bin 4: the interval `(e3, e4]`. -/
theorem qcutIdx_eq_four_iff {e0 e1 e2 e3 e4 e5 v : ℚ}
    (hmono : e0 ≤ e1 ∧ e1 ≤ e2 ∧ e2 ≤ e3 ∧ e3 ≤ e4 ∧ e4 ≤ e5) (hlo : e0 ≤ v) :
    qcutIdx [e0, e1, e2, e3, e4, e5] v = 4 ↔ e3 < v ∧ v ≤ e4 := by
  obtain ⟨h01, h12, h23, h34, h45⟩ := hmono
  unfold qcutIdx
  simp only [List.headD_cons]
  by_cases hv : v = e0
  · rw [if_pos hv]
    exact iff_of_false (by norm_num) (by rintro ⟨ha, hb⟩; linarith)
  · rw [if_neg hv, searchsortedLeft_six]
    have hlo' : ¬(v ≤ e0) := fun h' => hv (le_antisymm h' hlo)
    split_ifs with h1 h2 h3 h4 h5 <;>
      first
        | exact absurd h1 hlo'
        | exact iff_of_true (by norm_num) ⟨by linarith, by linarith⟩
        | exact iff_of_false (by norm_num) (by rintro ⟨ha, hb⟩; linarith)

/-- characterization of bin 5: the interval `(e4, e5]`. -/
theorem qcutIdx_eq_five_iff {e0 e1 e2 e3 e4 e5 v : ℚ}
    (hmono : e0 ≤ e1 ∧ e1 ≤ e2 ∧ e2 ≤ e3 ∧ e3 ≤ e4 ∧ e4 ≤ e5) (hlo : e0 ≤ v) :
    qcutIdx [e0, e1, e2, e3, e4, e5] v = 5 ↔ e4 < v ∧ v ≤ e5 := by
  obtain ⟨h01, h12, h23, h34, h45⟩ := hmono
  unfold qcutIdx
  simp only [List.headD_cons]
  by_cases hv : v = e0
  · rw [if_pos hv]
    exact iff_of_false (by norm_num) (by rintro ⟨ha, hb⟩; linarith)
  · rw [if_neg hv, searchsortedLeft_six]
    have hlo' : ¬(v ≤ e0) := fun h' => hv (le_antisymm h' hlo)
    split_ifs with h1 h2 h3 h4 h5 <;>
      first
        | exact absurd h1 hlo'
        | exact iff_of_true (by norm_num) ⟨by linarith, by linarith⟩
        | exact iff_of_false (by norm_num) (by rintro ⟨ha, hb⟩; linarith)

/-! ## The rank transform -/

theorem rankFirst_length (l : List ℚ) : (rankFirst l).length = l.length := by
  simp [rankFirst]

theorem rankFirst_eq_map_rankVal (l : List ℚ) :
    rankFirst l = (List.range l.length).map fun i => ((rankVal l i : ℕ) : ℚ) := rfl

theorem rankFirst_getD (l : List ℚ) (i : ℕ) (hi : i < l.length) :
    (rankFirst l).getD i 0 = ((rankVal l i : ℕ) : ℚ) := by
  rw [rankFirst_eq_map_rankVal]
  have hi' : i < ((List.range l.length).map fun i => ((rankVal l i : ℕ) : ℚ)).length := by
    rw [List.length_map, List.length_range]
    exact hi
  rw [List.getD_eq_getElem _ _ hi', List.getElem_map, List.getElem_range]

/-- `≤ x` splits into `< x` and `= x`. -/
theorem countP_le_eq_lt_add_eq (l : List ℚ) (x : ℚ) :
    (l.countP fun v => decide (v ≤ x)) =
      (l.countP fun v => decide (v < x)) + (l.countP fun v => decide (v = x)) :=
  countP_split l _ _ _
    (by
      intro a _
      by_cases h1 : a < x
      · simp [h1, le_of_lt h1]
      · by_cases h2 : a = x
        · simp [h2]
        · have h3 : ¬ a ≤ x := fun h' => h1 (lt_of_le_of_ne h' h2)
          simp [h1, h2, h3])
    (by
      intro a _
      simp only [decide_eq_true_eq]
      rintro ⟨h1, rfl⟩
      exact absurd h1 (lt_irrefl a))

/-- counting a predicate splits at any position. -/
theorem countP_take_drop {α : Type} (l : List α) (p : α → Bool) (i : ℕ) :
    l.countP p = (l.take i).countP p + (l.drop i).countP p := by
  conv_lhs => rw [← List.take_append_drop i l]
  exact List.countP_append _ _ _

/-- dropping at a valid position exposes the entry at that position. -/
theorem drop_eq_getD_cons {l : List ℚ} {i : ℕ} (hi : i < l.length) :
    l.drop i = l.getD i 0 :: l.drop (i + 1) := by
  rw [List.getD_eq_getElem _ _ hi]
  exact List.drop_eq_getElem_cons hi

/-- ranks are bounded by the column length. -/
theorem rankVal_le (l : List ℚ) (i : ℕ) (hi : i < l.length) :
    rankVal l i ≤ l.length := by
  unfold rankVal
  have hsplit := countP_take_drop l (fun v => decide (v < l.getD i 0)) i
  have hdropcount : ((l.drop i).countP fun v => decide (v < l.getD i 0)) ≤
      l.length - i - 1 := by
    rw [drop_eq_getD_cons hi, List.countP_cons_of_neg _ _ (by simp)]
    calc ((l.drop (i + 1)).countP fun v => decide (v < l.getD i 0)) ≤
          (l.drop (i + 1)).length := List.countP_le_length _
    _ = l.length - i - 1 := by rw [List.length_drop]; omega
  have htake : ((l.take i).countP fun v => decide (v < l.getD i 0)) +
      ((l.take i).countP fun v => decide (v = l.getD i 0)) ≤ i := by
    rw [← countP_le_eq_lt_add_eq]
    calc ((l.take i).countP fun v => decide (v ≤ l.getD i 0)) ≤ (l.take i).length :=
          List.countP_le_length _
    _ ≤ i := by rw [List.length_take]; omega
  omega

/-- strictly increasing position of the rank along the order of values:
a strictly smaller value gets a strictly smaller rank. -/
theorem rankVal_lt_of_value_lt (l : List ℚ) (i j : ℕ) (hi : i < l.length)
    (hj : j < l.length) (hvv : l.getD i 0 < l.getD j 0) :
    rankVal l i < rankVal l j := by
  unfold rankVal
  have h1 : (l.countP fun v => decide (v < l.getD i 0)) +
      ((l.take i).countP fun v => decide (v = l.getD i 0)) + 1 ≤
      l.countP fun v => decide (v ≤ l.getD i 0) := by
    rw [countP_le_eq_lt_add_eq]
    have hsplit := countP_take_drop l (fun v => decide (v = l.getD i 0)) i
    have hone : 1 ≤ (l.drop i).countP fun v => decide (v = l.getD i 0) := by
      rw [drop_eq_getD_cons hi, List.countP_cons_of_pos _ _ (by simp)]
      omega
    omega
  have h2 : (l.countP fun v => decide (v ≤ l.getD i 0)) ≤
      l.countP fun v => decide (v < l.getD j 0) :=
    List.countP_mono_left fun v _ => by
      simp only [decide_eq_true_eq]
      intro hvle
      exact lt_of_le_of_lt hvle hvv
  omega

/-- among equal values, the earlier occurrence gets the smaller rank
(the stable first-occurrence tie-break). -/
theorem rankVal_lt_of_pos_lt (l : List ℚ) (i j : ℕ) (hi : i < l.length)
    (hj : j < l.length) (hij : i < j) (hvv : l.getD i 0 = l.getD j 0) :
    rankVal l i < rankVal l j := by
  unfold rankVal
  rw [hvv]
  have htj : (l.take j).countP (fun v => decide (v = l.getD j 0)) =
      ((l.take i).countP fun v => decide (v = l.getD j 0)) +
      (((l.drop i).take (j - i)).countP fun v => decide (v = l.getD j 0)) := by
    have hsplit : l.take j = l.take i ++ (l.drop i).take (j - i) := by
      rw [← List.take_add]
      congr 1
      omega
    rw [hsplit]
    exact List.countP_append _ _ _
  have hone : 1 ≤ ((l.drop i).take (j - i)).countP fun v => decide (v = l.getD j 0) := by
    have hji : j - i = (j - i - 1) + 1 := by omega
    rw [drop_eq_getD_cons hi, hji, List.take_succ_cons,
      List.countP_cons_of_pos _ _ (by simp only [decide_eq_true_eq]; exact hvv)]
    omega
  omega

theorem rankVal_ne (l : List ℚ) (i j : ℕ) (hi : i < l.length)
    (hj : j < l.length) (hij : i < j) : rankVal l i ≠ rankVal l j := by
  rcases lt_trichotomy (l.getD i 0) (l.getD j 0) with hvv | hvv | hvv
  · exact Nat.ne_of_lt (rankVal_lt_of_value_lt l i j hi hj hvv)
  · exact Nat.ne_of_lt (rankVal_lt_of_pos_lt l i j hi hj hij hvv)
  · exact (Nat.ne_of_lt (rankVal_lt_of_value_lt l j i hj hi hvv)).symm

/-- distinct positions receive distinct ranks. -/
theorem rankFirst_nodup (l : List ℚ) : (rankFirst l).Nodup := by
  rw [List.Nodup, List.pairwise_iff_getElem]
  intro i j hi hj hij
  have hi' : i < l.length := by rw [rankFirst_length] at hi; exact hi
  have hj' : j < l.length := by rw [rankFirst_length] at hj; exact hj
  have hgi : (rankFirst l)[i] = ((rankVal l i : ℕ) : ℚ) := by
    rw [← List.getD_eq_getElem _ 0 hi]
    exact rankFirst_getD l i hi'
  have hgj : (rankFirst l)[j] = ((rankVal l j : ℕ) : ℚ) := by
    rw [← List.getD_eq_getElem _ 0 hj]
    exact rankFirst_getD l j hj'
  rw [hgi, hgj]
  intro h'
  exact rankVal_ne l i j hi' hj' hij (by exact_mod_cast h')

/-- the ranks are a permutation of `1..n`: sorting them gives exactly
`[1, 2, ..., n]`. -/
theorem sortRat_rankFirst (l : List ℚ) :
    sortRat (rankFirst l) = (List.range l.length).map fun k => ((k + 1 : ℕ) : ℚ) := by
  have hTsorted : List.Sorted (· ≤ ·)
      ((List.range l.length).map fun k => ((k + 1 : ℕ) : ℚ)) := by
    rw [List.Sorted, List.pairwise_iff_getElem]
    intro i j hi hj hij
    simp only [List.getElem_map, List.getElem_range]
    exact_mod_cast Nat.succ_le_succ (le_of_lt hij)
  have hsubset : rankFirst l ⊆ (List.range l.length).map fun k => ((k + 1 : ℕ) : ℚ) := by
    intro x hx
    rcases List.mem_iff_getElem.mp hx with ⟨i, hi, hix⟩
    have hi' : i < l.length := by rw [rankFirst_length] at hi; exact hi
    have hgi : (rankFirst l)[i] = ((rankVal l i : ℕ) : ℚ) := by
      rw [← List.getD_eq_getElem _ 0 hi]
      exact rankFirst_getD l i hi'
    have hle := rankVal_le l i hi'
    have hpos : 1 ≤ rankVal l i := by unfold rankVal; omega
    refine List.mem_map.mpr ⟨rankVal l i - 1, List.mem_range.mpr (by omega), ?_⟩
    rw [← hix, hgi]
    have hsub1 : rankVal l i - 1 + 1 = rankVal l i := by omega
    rw [hsub1]
  have hperm : (rankFirst l).Perm ((List.range l.length).map fun k => ((k + 1 : ℕ) : ℚ)) := by
    rcases (rankFirst_nodup l).subperm hsubset with ⟨R', hR'perm, hR'sl⟩
    have hR'len : R'.length =
        ((List.range l.length).map fun k => ((k + 1 : ℕ) : ℚ)).length := by
      rw [hR'perm.length_eq, rankFirst_length, List.length_map, List.length_range]
    have hR'eq : R' = (List.range l.length).map fun k => ((k + 1 : ℕ) : ℚ) :=
      hR'sl.eq_of_length hR'len
    exact (hR'eq ▸ hR'perm).symm
  exact List.eq_of_perm_of_sorted ((sortRat_perm _).trans hperm) (sortRat_sorted _) hTsorted

/-! ## Population balance of the quintile bins -/

/-- the head of a sorted column bounds every member from below. -/
theorem sorted_head_le {s : List ℚ} (hs : s.Sorted (· ≤ ·)) {v : ℚ} (hv : v ∈ s) :
    s.getD 0 0 ≤ v := by
  rcases List.mem_iff_getElem.mp hv with ⟨j, hj, hjv⟩
  have hle := sorted_getD_le hs (Nat.zero_le j) hj
  rw [List.getD_eq_getElem _ _ hj, hjv] at hle
  exact hle

/-- the last entry of a sorted column bounds every member from above. -/
theorem sorted_le_last {s : List ℚ} (hs : s.Sorted (· ≤ ·)) {v : ℚ} (hv : v ∈ s) :
    v ≤ s.getD (s.length - 1) 0 := by
  rcases List.mem_iff_getElem.mp hv with ⟨j, hj, hjv⟩
  have hlast : s.length - 1 < s.length := by omega
  have hle := sorted_getD_le hs (show j ≤ s.length - 1 by omega) hlast
  rw [List.getD_eq_getElem _ _ hj, hjv] at hle
  exact hle

/-- each of the five quintile bins of a strictly sorted column whose six
edges are distinct holds the column's population up to `±1` of a fifth:
`n - 5 ≤ 5·(bin count) ≤ n + 5`. -/
theorem strictSorted_bin_balance (s : List ℚ) (hs : s.Pairwise (· < ·))
    (hne : s ≠ []) (j : ℕ) (hj1 : 1 ≤ j) (hj5 : j ≤ 5) :
    s.length ≤ 5 * (s.countP fun v =>
      decide (qcutIdx ([0, 1/5, 2/5, 3/5, 4/5, 1].map (quantileSorted s)) v = j)) + 5 ∧
    5 * (s.countP fun v =>
      decide (qcutIdx ([0, 1/5, 2/5, 3/5, 4/5, 1].map (quantileSorted s)) v = j)) ≤
      s.length + 5 := by
  have hn : 1 ≤ s.length := Nat.one_le_iff_ne_zero.mpr
    (fun h' => hne (List.length_eq_zero.mp h'))
  have hexp : [0, 1/5, 2/5, 3/5, 4/5, 1].map (quantileSorted s) =
      [quantileSorted s 0, quantileSorted s (1/5), quantileSorted s (2/5),
       quantileSorted s (3/5), quantileSorted s (4/5), quantileSorted s 1] := rfl
  rw [hexp]
  have hsorted : s.Sorted (· ≤ ·) := hs.imp le_of_lt
  -- edge monotonicity
  have he01 : quantileSorted s 0 ≤ quantileSorted s (1/5) :=
    quantileSorted_mono hs hne (by norm_num) (by norm_num) (by norm_num)
  have he12 : quantileSorted s (1/5) ≤ quantileSorted s (2/5) :=
    quantileSorted_mono hs hne (by norm_num) (by norm_num) (by norm_num)
  have he23 : quantileSorted s (2/5) ≤ quantileSorted s (3/5) :=
    quantileSorted_mono hs hne (by norm_num) (by norm_num) (by norm_num)
  have he34 : quantileSorted s (3/5) ≤ quantileSorted s (4/5) :=
    quantileSorted_mono hs hne (by norm_num) (by norm_num) (by norm_num)
  have he45 : quantileSorted s (4/5) ≤ quantileSorted s 1 :=
    quantileSorted_mono hs hne (by norm_num) (by norm_num) (by norm_num)
  have hmono : quantileSorted s 0 ≤ quantileSorted s (1/5) ∧
      quantileSorted s (1/5) ≤ quantileSorted s (2/5) ∧
      quantileSorted s (2/5) ≤ quantileSorted s (3/5) ∧
      quantileSorted s (3/5) ≤ quantileSorted s (4/5) ∧
      quantileSorted s (4/5) ≤ quantileSorted s 1 :=
    ⟨he01, he12, he23, he34, he45⟩
  -- every member lies between the extreme edges
  have hlo_v : ∀ v ∈ s, quantileSorted s 0 ≤ v := by
    intro v hv
    rw [quantileSorted_zero]
    exact sorted_head_le hsorted hv
  have hhi_v : ∀ v ∈ s, v ≤ quantileSorted s 1 := by
    intro v hv
    rw [quantileSorted_one hne]
    exact sorted_le_last hsorted hv
  -- cumulative counts at the interior edges
  have hcum : ∀ q : ℚ, 0 ≤ q → q ≤ 1 →
      s.countP (fun v => decide (v ≤ quantileSorted s q)) =
        ⌊q * ((s.length : ℚ) - 1)⌋₊ + 1 := by
    intro q h0 h1
    obtain ⟨ha, hb, hc⟩ := quantileSorted_bounds hs hne h0 h1
    exact countP_le_strictSorted hs ha hb hc
  have hfloor : ∀ m : ℕ, ⌊((m : ℚ)) / 5 * ((s.length : ℚ) - 1)⌋₊ =
      m * (s.length - 1) / 5 := by
    intro m
    have hc : ((m : ℚ)) / 5 * ((s.length : ℚ) - 1) =
        ((m * (s.length - 1) : ℕ) : ℚ) / ((5 : ℕ) : ℚ) := by
      push_cast [hn]
      ring
    rw [hc, Nat.floor_div_nat, Nat.floor_natCast]
  have hcum1 : s.countP (fun v => decide (v ≤ quantileSorted s (1/5))) =
      1 * (s.length - 1) / 5 + 1 := by
    rw [hcum (1/5) (by norm_num) (by norm_num), show (1/5 : ℚ) = ((1 : ℕ) : ℚ) / 5 by norm_num,
      hfloor 1]
  have hcum2 : s.countP (fun v => decide (v ≤ quantileSorted s (2/5))) =
      2 * (s.length - 1) / 5 + 1 := by
    rw [hcum (2/5) (by norm_num) (by norm_num), show (2/5 : ℚ) = ((2 : ℕ) : ℚ) / 5 by norm_num,
      hfloor 2]
  have hcum3 : s.countP (fun v => decide (v ≤ quantileSorted s (3/5))) =
      3 * (s.length - 1) / 5 + 1 := by
    rw [hcum (3/5) (by norm_num) (by norm_num), show (3/5 : ℚ) = ((3 : ℕ) : ℚ) / 5 by norm_num,
      hfloor 3]
  have hcum4 : s.countP (fun v => decide (v ≤ quantileSorted s (4/5))) =
      4 * (s.length - 1) / 5 + 1 := by
    rw [hcum (4/5) (by norm_num) (by norm_num), show (4/5 : ℚ) = ((4 : ℕ) : ℚ) / 5 by norm_num,
      hfloor 4]
  -- division facts feeding the final arithmetic
  have hdiv1 := Nat.div_add_mod (1 * (s.length - 1)) 5
  have hmod1 := Nat.mod_lt (1 * (s.length - 1)) (show 0 < 5 by norm_num)
  have hdiv2 := Nat.div_add_mod (2 * (s.length - 1)) 5
  have hmod2 := Nat.mod_lt (2 * (s.length - 1)) (show 0 < 5 by norm_num)
  have hdiv3 := Nat.div_add_mod (3 * (s.length - 1)) 5
  have hmod3 := Nat.mod_lt (3 * (s.length - 1)) (show 0 < 5 by norm_num)
  have hdiv4 := Nat.div_add_mod (4 * (s.length - 1)) 5
  have hmod4 := Nat.mod_lt (4 * (s.length - 1)) (show 0 < 5 by norm_num)
  -- the five bins
  interval_cases j
  · -- bin 1 is everything up to the 20% edge
    have hbin : (s.countP fun v => decide (qcutIdx [quantileSorted s 0, quantileSorted s (1/5),
        quantileSorted s (2/5), quantileSorted s (3/5), quantileSorted s (4/5),
        quantileSorted s 1] v = 1)) =
        s.countP (fun v => decide (v ≤ quantileSorted s (1/5))) :=
      List.countP_congr fun v hv => by
        simp only [decide_eq_true_eq]
        exact qcutIdx_eq_one_iff he01 (hlo_v v hv)
    rw [hbin, hcum1]
    omega
  · -- bin 2 is the slice between the 20% and 40% edges
    have hsplit := countP_split s
      (fun v => decide (v ≤ quantileSorted s (2/5)))
      (fun v => decide (v ≤ quantileSorted s (1/5)))
      (fun v => decide (qcutIdx [quantileSorted s 0, quantileSorted s (1/5),
        quantileSorted s (2/5), quantileSorted s (3/5), quantileSorted s (4/5),
        quantileSorted s 1] v = 2))
      (by
        intro v hv
        have hiff := qcutIdx_eq_two_iff hmono (hlo_v v hv)
        rw [← Bool.decide_or]
        apply decide_eq_decide.mpr
        constructor
        · intro h2
          by_cases h1 : v ≤ quantileSorted s (1/5)
          · exact Or.inl h1
          · exact Or.inr (hiff.mpr ⟨lt_of_not_le h1, h2⟩)
        · rintro (h1 | h2)
          · exact le_trans h1 he12
          · exact (hiff.mp h2).2)
      (by
        intro v hv
        have hiff := qcutIdx_eq_two_iff hmono (hlo_v v hv)
        simp only [decide_eq_true_eq]
        rintro ⟨h1, h2⟩
        exact absurd h1 (not_le.mpr (hiff.mp h2).1))
    rw [hcum1, hcum2] at hsplit
    omega
  · -- bin 3
    have hsplit := countP_split s
      (fun v => decide (v ≤ quantileSorted s (3/5)))
      (fun v => decide (v ≤ quantileSorted s (2/5)))
      (fun v => decide (qcutIdx [quantileSorted s 0, quantileSorted s (1/5),
        quantileSorted s (2/5), quantileSorted s (3/5), quantileSorted s (4/5),
        quantileSorted s 1] v = 3))
      (by
        intro v hv
        have hiff := qcutIdx_eq_three_iff hmono (hlo_v v hv)
        rw [← Bool.decide_or]
        apply decide_eq_decide.mpr
        constructor
        · intro h2
          by_cases h1 : v ≤ quantileSorted s (2/5)
          · exact Or.inl h1
          · exact Or.inr (hiff.mpr ⟨lt_of_not_le h1, h2⟩)
        · rintro (h1 | h2)
          · exact le_trans h1 he23
          · exact (hiff.mp h2).2)
      (by
        intro v hv
        have hiff := qcutIdx_eq_three_iff hmono (hlo_v v hv)
        simp only [decide_eq_true_eq]
        rintro ⟨h1, h2⟩
        exact absurd h1 (not_le.mpr (hiff.mp h2).1))
    rw [hcum2, hcum3] at hsplit
    omega
  · -- bin 4
    have hsplit := countP_split s
      (fun v => decide (v ≤ quantileSorted s (4/5)))
      (fun v => decide (v ≤ quantileSorted s (3/5)))
      (fun v => decide (qcutIdx [quantileSorted s 0, quantileSorted s (1/5),
        quantileSorted s (2/5), quantileSorted s (3/5), quantileSorted s (4/5),
        quantileSorted s 1] v = 4))
      (by
        intro v hv
        have hiff := qcutIdx_eq_four_iff hmono (hlo_v v hv)
        rw [← Bool.decide_or]
        apply decide_eq_decide.mpr
        constructor
        · intro h2
          by_cases h1 : v ≤ quantileSorted s (3/5)
          · exact Or.inl h1
          · exact Or.inr (hiff.mpr ⟨lt_of_not_le h1, h2⟩)
        · rintro (h1 | h2)
          · exact le_trans h1 he34
          · exact (hiff.mp h2).2)
      (by
        intro v hv
        have hiff := qcutIdx_eq_four_iff hmono (hlo_v v hv)
        simp only [decide_eq_true_eq]
        rintro ⟨h1, h2⟩
        exact absurd h1 (not_le.mpr (hiff.mp h2).1))
    rw [hcum3, hcum4] at hsplit
    omega
  · -- bin 5 is everything above the 80% edge
    have htotal := countP_le_add_countP_gt (s := s) (quantileSorted s (4/5))
    have hbin : (s.countP fun v => decide (qcutIdx [quantileSorted s 0, quantileSorted s (1/5),
        quantileSorted s (2/5), quantileSorted s (3/5), quantileSorted s (4/5),
        quantileSorted s 1] v = 5)) =
        s.countP (fun v => decide (quantileSorted s (4/5) < v)) :=
      List.countP_congr fun v hv => by
        simp only [decide_eq_true_eq]
        have hiff := qcutIdx_eq_five_iff hmono (hlo_v v hv)
        constructor
        · intro h5
          exact (hiff.mp h5).1
        · intro h5
          exact hiff.mpr ⟨h5, hhi_v v hv⟩
    rw [hbin]
    rw [hcum4] at htotal
    omega

/-! ## Success and failure of `qcut` -/

theorem qcutEdges_expand (l : List ℚ) :
    qcutEdges l = [quantileSorted (sortRat l) 0, quantileSorted (sortRat l) (1/5),
      quantileSorted (sortRat l) (2/5), quantileSorted (sortRat l) (3/5),
      quantileSorted (sortRat l) (4/5), quantileSorted (sortRat l) 1] := rfl

/-- a column of distinct values with at least two entries always has six
distinct (indeed strictly increasing) quintile edges. -/
theorem qcutEdges_nodup_of_nodup {l : List ℚ} (hnd : l.Nodup) (h2 : 2 ≤ l.length) :
    (qcutEdges l).Nodup := by
  have hs : (sortRat l).Pairwise (· < ·) := sortRat_strictSorted hnd
  have hlen : 2 ≤ (sortRat l).length := by rw [sortRat_length]; exact h2
  have hstep : ∀ q q' : ℚ, 0 ≤ q → q < q' → q' ≤ 1 →
      quantileSorted (sortRat l) q < quantileSorted (sortRat l) q' :=
    fun q q' h0 hqq h1 => quantileSorted_strictMono hs hlen h0 hqq h1
  have h01 := hstep 0 (1/5) (by norm_num) (by norm_num) (by norm_num)
  have h12 := hstep (1/5) (2/5) (by norm_num) (by norm_num) (by norm_num)
  have h23 := hstep (2/5) (3/5) (by norm_num) (by norm_num) (by norm_num)
  have h34 := hstep (3/5) (4/5) (by norm_num) (by norm_num) (by norm_num)
  have h45 := hstep (4/5) 1 (by norm_num) (by norm_num) (by norm_num)
  rw [qcutEdges_expand]
  have hpw : List.Pairwise (· < ·) [quantileSorted (sortRat l) 0,
      quantileSorted (sortRat l) (1/5), quantileSorted (sortRat l) (2/5),
      quantileSorted (sortRat l) (3/5), quantileSorted (sortRat l) (4/5),
      quantileSorted (sortRat l) 1] := by
    rw [← List.chain'_iff_pairwise]
    simp only [List.chain'_cons, List.chain'_singleton, and_true]
    exact ⟨h01, h12, h23, h34, h45⟩
  exact hpw.imp ne_of_lt

theorem qcut_isOk_iff (l : List ℚ) (labels : List ℕ) :
    (qcut l labels).isOk = true ↔ (qcutEdges l).Nodup := by
  unfold qcut
  split_ifs with h
  · simp [Except.isOk, Except.toBool, h]
  · simp [Except.isOk, Except.toBool, h]

theorem qcut_ok_eq {l : List ℚ} {labels : List ℕ} {out : List ℕ}
    (h : qcut l labels = .ok out) :
    (qcutEdges l).Nodup ∧
    out = l.map fun v => labels.getD (qcutIdx (qcutEdges l) v - 1) 0 := by
  unfold qcut at h
  split_ifs at h with hnd
  · refine ⟨hnd, ?_⟩
    injection h with h'
    exact h'.symm

/-- the rank-transformed frequency column always has distinct quintile
edges for populations of at least two customers, so its binning never
fails. -/
theorem qcut_rank_isOk {l : List ℚ} (h2 : 2 ≤ l.length) (labels : List ℕ) :
    (qcut (rankFirst l) labels).isOk = true := by
  rw [qcut_isOk_iff]
  exact qcutEdges_nodup_of_nodup (rankFirst_nodup l) (by rw [rankFirst_length]; exact h2)

/-- the bin index of every column member is between 1 and 5. -/
theorem qcutIdx_mem_bounds {l : List ℚ} {v : ℚ} (hv : v ∈ l) :
    1 ≤ qcutIdx (qcutEdges l) v ∧ qcutIdx (qcutEdges l) v ≤ 5 := by
  rw [qcutEdges_expand]
  refine qcutIdx_mem15 ?_ ?_
  · rw [quantileSorted_zero]
    exact sorted_head_le (sortRat_sorted l) ((sortRat_perm l).mem_iff.mpr hv)
  · have hne : sortRat l ≠ [] := by
      intro h'
      have := (sortRat_perm l).mem_iff.mpr hv
      rw [h'] at this
      cases this
    rw [quantileSorted_one hne]
    have := le_sortRat_last hv
    rw [sortRat_length]
    exact this

/-- a minimal column value always lands in bin 1 (`include_lowest`). -/
theorem qcutIdx_eq_one_of_min {l : List ℚ} {v : ℚ} (hv : v ∈ l)
    (hmin : ∀ x ∈ l, v ≤ x) : qcutIdx (qcutEdges l) v = 1 := by
  unfold qcutIdx
  rw [if_pos]
  rw [qcutEdges_expand, List.headD_cons, quantileSorted_zero,
    sortRat_head_of_min hv hmin]

/-! ## Structure of the scored table -/

/-- positional column attachment: lengths and all seven projections. -/
theorem attachScores_spec (base : List RFMRow) :
    ∀ (rs fs ms : List ℕ), rs.length = base.length → fs.length = base.length →
    ms.length = base.length →
    (attachScores base rs fs ms).length = base.length ∧
    (attachScores base rs fs ms).map (·.recency) = base.map (·.recency) ∧
    (attachScores base rs fs ms).map (·.frequency) = base.map (·.frequency) ∧
    (attachScores base rs fs ms).map (·.monetary) = base.map (·.monetary) ∧
    (attachScores base rs fs ms).map (·.r_score) = rs ∧
    (attachScores base rs fs ms).map (·.f_score) = fs ∧
    (attachScores base rs fs ms).map (·.m_score) = ms := by
  induction base with
  | nil =>
    intro rs fs ms hr hf hm
    obtain rfl : rs = [] := List.length_eq_zero.mp (by simpa using hr)
    obtain rfl : fs = [] := List.length_eq_zero.mp (by simpa using hf)
    obtain rfl : ms = [] := List.length_eq_zero.mp (by simpa using hm)
    simp [attachScores]
  | cons row rows ih =>
    intro rs fs ms hr hf hm
    cases rs with
    | nil => simp at hr
    | cons r rs' =>
      cases fs with
      | nil => simp at hf
      | cons f fs' =>
        cases ms with
        | nil => simp at hm
        | cons m ms' =>
          have hr' : rs'.length = rows.length := by simpa using hr
          have hf' : fs'.length = rows.length := by simpa using hf
          have hm' : ms'.length = rows.length := by simpa using hm
          obtain ⟨h1, h2, h3, h4, h5, h6, h7⟩ := ih rs' fs' ms' hr' hf' hm'
          simp only [attachScores, List.map_cons, List.length_cons]
          exact ⟨by rw [h1], by rw [h2], by rw [h3], by rw [h4],
            by rw [h5], by rw [h6], by rw [h7]⟩

/-- inversion of the three sequential `qcut` calls of lines 110-112. -/
theorem rfm_scored_ok {cs : List Customer} {ps : List Product} {ts : List Transaction}
    {rows : List ScoredRow} (h : rfm_scored cs ps ts = .ok rows) :
    ∃ rS fS mS,
      qcut ((rfm cs ps ts).map fun r => (r.recency : ℚ)) [5, 4, 3, 2, 1] = .ok rS ∧
      qcut (rankFirst ((rfm cs ps ts).map fun r => (r.frequency : ℚ))) [1, 2, 3, 4, 5] = .ok fS ∧
      qcut ((rfm cs ps ts).map fun r => r.monetary) [1, 2, 3, 4, 5] = .ok mS ∧
      rows = attachScores (rfm cs ps ts) rS fS mS := by
  unfold rfm_scored at h
  cases hqr : qcut ((rfm cs ps ts).map fun r => (r.recency : ℚ)) [5, 4, 3, 2, 1] with
  | error e => rw [hqr] at h; simp at h
  | ok rS =>
    rw [hqr] at h
    cases hqf : qcut (rankFirst ((rfm cs ps ts).map fun r => (r.frequency : ℚ)))
        [1, 2, 3, 4, 5] with
    | error e => rw [hqf] at h; simp at h
    | ok fS =>
      rw [hqf] at h
      cases hqm : qcut ((rfm cs ps ts).map fun r => r.monetary) [1, 2, 3, 4, 5] with
      | error e => rw [hqm] at h; simp at h
      | ok mS =>
        rw [hqm] at h
        simp only [Except.ok.injEq] at h
        exact ⟨rS, fS, mS, rfl, rfl, rfl, h.symm⟩

/-- a score produced by `qcut` is one of the supplied labels. -/
theorem score_mem_labels {l : List ℚ} {labels : List ℕ} {x : ℕ}
    (hx : x ∈ l.map fun v => labels.getD (qcutIdx (qcutEdges l) v - 1) 0)
    (hlab : labels.length = 5) : x ∈ labels := by
  rcases List.mem_map.mp hx with ⟨v, hv, hxv⟩
  obtain ⟨h1, h5⟩ := qcutIdx_mem_bounds hv
  have hidx : qcutIdx (qcutEdges l) v - 1 < labels.length := by omega
  rw [← hxv, List.getD_eq_getElem _ _ hidx]
  exact List.getElem_mem hidx

/-- with direct labels `[1,2,3,4,5]`, the score equals the bin index. -/
theorem direct_label_iff (w i : ℕ) (hw1 : 1 ≤ w) (hw5 : w ≤ 5)
    (h1 : 1 ≤ i) (h5 : i ≤ 5) :
    (([1, 2, 3, 4, 5] : List ℕ).getD (i - 1) 0 = w ↔ i = w) := by
  interval_cases i <;> interval_cases w <;> decide

/-- with inverted labels `[5,4,3,2,1]`, the score is the mirrored bin
index (`lowest recency → score 5`). -/
theorem inverted_label_iff (w i : ℕ) (hw1 : 1 ≤ w) (hw5 : w ≤ 5)
    (h1 : 1 ≤ i) (h5 : i ≤ 5) :
    (([5, 4, 3, 2, 1] : List ℕ).getD (i - 1) 0 = w ↔ i = 6 - w) := by
  interval_cases i <;> interval_cases w <;> decide

/-- counting a score value over a scored column is counting the matching
bin index over the raw column. -/
theorem countP_score_eq_countP_idx {l : List ℚ} {labels : List ℕ} {w j : ℕ}
    (hwj : ∀ i, 1 ≤ i → i ≤ 5 → (labels.getD (i - 1) 0 = w ↔ i = j)) :
    ((l.map fun v => labels.getD (qcutIdx (qcutEdges l) v - 1) 0).countP
      fun x => decide (x = w)) =
      l.countP fun v => decide (qcutIdx (qcutEdges l) v = j) := by
  rw [List.countP_map]
  apply List.countP_congr
  intro v hv
  obtain ⟨h1, h5⟩ := qcutIdx_mem_bounds hv
  simp only [Function.comp, decide_eq_true_eq]
  exact hwj _ h1 h5

/-- bin-population balance for any column of pairwise-distinct values on
which `qcut` succeeded. -/
theorem qcut_column_balance {l : List ℚ} (hnd : l.Nodup) (hok : (qcutEdges l).Nodup)
    (j : ℕ) (hj1 : 1 ≤ j) (hj5 : j ≤ 5) :
    l.length ≤ 5 * (l.countP fun v => decide (qcutIdx (qcutEdges l) v = j)) + 5 ∧
    5 * (l.countP fun v => decide (qcutIdx (qcutEdges l) v = j)) ≤ l.length + 5 := by
  have hne : l ≠ [] := by
    intro h'
    rw [h'] at hok
    exact absurd hok (by with_unfolding_all decide)
  have hsne : sortRat l ≠ [] := by
    intro h'
    have hlen := sortRat_length l
    rw [h'] at hlen
    exact hne (List.length_eq_zero.mp hlen.symm)
  have hs : (sortRat l).Pairwise (· < ·) := sortRat_strictSorted hnd
  have hcount : (l.countP fun v => decide (qcutIdx (qcutEdges l) v = j)) =
      ((sortRat l).countP fun v => decide (qcutIdx (qcutEdges l) v = j)) :=
    ((sortRat_perm l).countP_eq _).symm
  have hlen := sortRat_length l
  have hbal := strictSorted_bin_balance (sortRat l) hs hsne j hj1 hj5
  rw [hcount, ← hlen]
  exact hbal

theorem getD_map {α β : Type} (f : α → β) (l : List α) (dβ : β) (dα : α) {i : ℕ}
    (hi : i < l.length) : (l.map f).getD i dβ = f (l.getD i dα) := by
  have hi' : i < (l.map f).length := by rw [List.length_map]; exact hi
  rw [List.getD_eq_getElem _ _ hi', List.getElem_map, List.getD_eq_getElem _ _ hi]

theorem mem_one_to_five {w : ℕ} (hw : w ∈ ([1, 2, 3, 4, 5] : List ℕ)) :
    1 ≤ w ∧ w ≤ 5 := by
  fin_cases hw <;> omega

/-- C3 (amended): on every RFM table for which the scoring step of lines
110-112 succeeds, all three quintile scores take values only in
`{1,2,3,4,5}`; recency scoring is inverted — every customer with the
lowest recency receives `r_score = 5` — while monetary scoring is direct
— every customer with the lowest monetary receives `m_score = 1` — and
frequency scoring is direct up to the stable rank tie-break — the
first-occurring customer with the lowest frequency receives
`f_score = 1` (a *later* tied occurrence can score higher); each
`f_score` bin always holds a fifth of the population within ±1 customer,
and the `r_score` / `m_score` bins do so whenever the respective metric
column has no ties (`c3_ties_counterexample` shows both the ±1 bound and
`lowest value → score 1` fail under ties, which is what forces this
amendment of the original claim). -/
theorem c3_quintile_scores_amended (cs : List Customer) (ps : List Product)
    (ts : List Transaction) (rows : List ScoredRow)
    (h : rfm_scored cs ps ts = .ok rows) : QuintileScoreSpec rows := by
  obtain ⟨rS, fS, mS, hqr, hqf, hqm, hrows⟩ := rfm_scored_ok h
  obtain ⟨hndR, hrSeq⟩ := qcut_ok_eq hqr
  obtain ⟨hndF, hfSeq⟩ := qcut_ok_eq hqf
  obtain ⟨hndM, hmSeq⟩ := qcut_ok_eq hqm
  have hrSlen : rS.length = (rfm cs ps ts).length := by rw [hrSeq]; simp
  have hfSlen : fS.length = (rfm cs ps ts).length := by
    rw [hfSeq]; simp [rankFirst_length]
  have hmSlen : mS.length = (rfm cs ps ts).length := by rw [hmSeq]; simp
  obtain ⟨hlen, hmrec, hmfreq, hmmon, hmr, hmf, hmm⟩ :=
    attachScores_spec (rfm cs ps ts) rS fS mS hrSlen hfSlen hmSlen
  subst hrows
  refine ⟨?_, ?_, ?_, ?_, ?_, ?_, ?_⟩
  · -- all three scores lie in {1..5}
    intro row hrow
    have h51 : ∀ a ∈ ([5, 4, 3, 2, 1] : List ℕ), a ∈ ([1, 2, 3, 4, 5] : List ℕ) := by decide
    refine ⟨?_, ?_, ?_⟩
    · have hmem : row.r_score ∈ rS := by
        rw [← hmr]
        exact List.mem_map.mpr ⟨row, hrow, rfl⟩
      rw [hrSeq] at hmem
      exact h51 _ (score_mem_labels hmem rfl)
    · have hmem : row.f_score ∈ fS := by
        rw [← hmf]
        exact List.mem_map.mpr ⟨row, hrow, rfl⟩
      rw [hfSeq] at hmem
      exact score_mem_labels hmem rfl
    · have hmem : row.m_score ∈ mS := by
        rw [← hmm]
        exact List.mem_map.mpr ⟨row, hrow, rfl⟩
      rw [hmSeq] at hmem
      exact score_mem_labels hmem rfl
  · -- minimal recency scores 5
    intro row hrow hmin
    rcases List.mem_iff_getElem.mp hrow with ⟨i, hi, hieq⟩
    have hib : i < (rfm cs ps ts).length := by rw [← hlen]; exact hi
    have hcolRlen : i < ((rfm cs ps ts).map fun r => (r.recency : ℚ)).length := by
      rw [List.length_map]; exact hib
    have hrowD : (attachScores (rfm cs ps ts) rS fS mS).getD i default = row := by
      rw [List.getD_eq_getElem _ _ hi, hieq]
    have hsc : row.r_score = rS.getD i 0 := by
      have h2 : ((attachScores (rfm cs ps ts) rS fS mS).map fun x => x.r_score).getD i 0 =
          ((attachScores (rfm cs ps ts) rS fS mS).getD i default).r_score :=
        getD_map _ _ 0 default hi
      rw [hmr, hrowD] at h2
      exact h2.symm
    have hrecrow : ((rfm cs ps ts).getD i default).recency = row.recency := by
      have h1 : ((rfm cs ps ts).map fun r => r.recency).getD i 0 =
          ((rfm cs ps ts).getD i default).recency :=
        getD_map _ _ 0 default hib
      have h2 : ((attachScores (rfm cs ps ts) rS fS mS).map fun x => x.recency).getD i 0 =
          ((attachScores (rfm cs ps ts) rS fS mS).getD i default).recency :=
        getD_map _ _ 0 default hi
      rw [hmrec, hrowD] at h2
      rw [← h1]
      exact h2
    have hrec : ((rfm cs ps ts).map fun r => (r.recency : ℚ)).getD i 0 =
        (row.recency : ℚ) := by
      have h3 : ((rfm cs ps ts).map fun r => (r.recency : ℚ)).getD i 0 =
          (((rfm cs ps ts).getD i default).recency : ℚ) :=
        getD_map _ _ 0 default hib
      rw [h3, hrecrow]
    have hvmem : (row.recency : ℚ) ∈ (rfm cs ps ts).map fun r => (r.recency : ℚ) := by
      rw [← hrec, List.getD_eq_getElem _ _ hcolRlen]
      exact List.getElem_mem hcolRlen
    have hvmin : ∀ x ∈ (rfm cs ps ts).map fun r => (r.recency : ℚ),
        (row.recency : ℚ) ≤ x := by
      intro x hx
      rcases List.mem_map.mp hx with ⟨b, hb, hbx⟩
      have hbmem : b.recency ∈ (attachScores (rfm cs ps ts) rS fS mS).map (·.recency) := by
        rw [hmrec]
        exact List.mem_map.mpr ⟨b, hb, rfl⟩
      rcases List.mem_map.mp hbmem with ⟨row', hrow', hrow'b⟩
      rw [← hbx, ← hrow'b]
      exact_mod_cast hmin row' hrow'
    have hidx := qcutIdx_eq_one_of_min hvmem hvmin
    have h4 : (((rfm cs ps ts).map fun r => (r.recency : ℚ)).map fun v =>
        ([5, 4, 3, 2, 1] : List ℕ).getD
          (qcutIdx (qcutEdges ((rfm cs ps ts).map fun r => (r.recency : ℚ))) v - 1) 0).getD
        i 0 =
        ([5, 4, 3, 2, 1] : List ℕ).getD
          (qcutIdx (qcutEdges ((rfm cs ps ts).map fun r => (r.recency : ℚ)))
            (((rfm cs ps ts).map fun r => (r.recency : ℚ)).getD i 0) - 1) 0 :=
      getD_map _ _ 0 0 hcolRlen
    rw [hsc, hrSeq, h4, hrec, hidx]
    rfl
  · -- minimal monetary scores 1
    intro row hrow hmin
    rcases List.mem_iff_getElem.mp hrow with ⟨i, hi, hieq⟩
    have hib : i < (rfm cs ps ts).length := by rw [← hlen]; exact hi
    have hcolMlen : i < ((rfm cs ps ts).map fun r => r.monetary).length := by
      rw [List.length_map]; exact hib
    have hrowD : (attachScores (rfm cs ps ts) rS fS mS).getD i default = row := by
      rw [List.getD_eq_getElem _ _ hi, hieq]
    have hsc : row.m_score = mS.getD i 0 := by
      have h2 : ((attachScores (rfm cs ps ts) rS fS mS).map fun x => x.m_score).getD i 0 =
          ((attachScores (rfm cs ps ts) rS fS mS).getD i default).m_score :=
        getD_map _ _ 0 default hi
      rw [hmm, hrowD] at h2
      exact h2.symm
    have hmonrow : ((rfm cs ps ts).getD i default).monetary = row.monetary := by
      have h1 : ((rfm cs ps ts).map fun r => r.monetary).getD i 0 =
          ((rfm cs ps ts).getD i default).monetary :=
        getD_map _ _ 0 default hib
      have h2 : ((attachScores (rfm cs ps ts) rS fS mS).map fun x => x.monetary).getD i 0 =
          ((attachScores (rfm cs ps ts) rS fS mS).getD i default).monetary :=
        getD_map _ _ 0 default hi
      rw [hmmon, hrowD] at h2
      rw [← h1]
      exact h2
    have hmon : ((rfm cs ps ts).map fun r => r.monetary).getD i 0 = row.monetary := by
      have h3 : ((rfm cs ps ts).map fun r => r.monetary).getD i 0 =
          ((rfm cs ps ts).getD i default).monetary :=
        getD_map _ _ 0 default hib
      rw [h3, hmonrow]
    have hvmem : row.monetary ∈ (rfm cs ps ts).map fun r => r.monetary := by
      rw [← hmon, List.getD_eq_getElem _ _ hcolMlen]
      exact List.getElem_mem hcolMlen
    have hvmin : ∀ x ∈ (rfm cs ps ts).map fun r => r.monetary, row.monetary ≤ x := by
      intro x hx
      rcases List.mem_map.mp hx with ⟨b, hb, hbx⟩
      have hbmem : b.monetary ∈ (attachScores (rfm cs ps ts) rS fS mS).map (·.monetary) := by
        rw [hmmon]
        exact List.mem_map.mpr ⟨b, hb, rfl⟩
      rcases List.mem_map.mp hbmem with ⟨row', hrow', hrow'b⟩
      rw [← hbx, ← hrow'b]
      exact hmin row' hrow'
    have hidx := qcutIdx_eq_one_of_min hvmem hvmin
    have h4 : (((rfm cs ps ts).map fun r => r.monetary).map fun v =>
        ([1, 2, 3, 4, 5] : List ℕ).getD
          (qcutIdx (qcutEdges ((rfm cs ps ts).map fun r => r.monetary)) v - 1) 0).getD
        i 0 =
        ([1, 2, 3, 4, 5] : List ℕ).getD
          (qcutIdx (qcutEdges ((rfm cs ps ts).map fun r => r.monetary))
            (((rfm cs ps ts).map fun r => r.monetary).getD i 0) - 1) 0 :=
      getD_map _ _ 0 0 hcolMlen
    rw [hsc, hmSeq, h4, hmon, hidx]
    rfl
  · -- the first-occurring minimal frequency scores 1
    intro i hi hmin hfirst
    have hib : i < (rfm cs ps ts).length := by rw [← hlen]; exact hi
    have hcolFlen : i < ((rfm cs ps ts).map fun r => (r.frequency : ℚ)).length := by
      rw [List.length_map]; exact hib
    have hRlen : i < (rankFirst ((rfm cs ps ts).map fun r => (r.frequency : ℚ))).length := by
      rw [rankFirst_length]; exact hcolFlen
    have hcolF_all : ∀ k, k < (rfm cs ps ts).length →
        ((rfm cs ps ts).map fun r => (r.frequency : ℚ)).getD k 0 =
        (((attachScores (rfm cs ps ts) rS fS mS).getD k default).frequency : ℚ) := by
      intro k hkb
      have hkb2 : k < (attachScores (rfm cs ps ts) rS fS mS).length := by
        rw [hlen]; exact hkb
      have h1 : ((rfm cs ps ts).map fun r => r.frequency).getD k 0 =
          ((rfm cs ps ts).getD k default).frequency :=
        getD_map _ _ 0 default hkb
      have h2 : ((attachScores (rfm cs ps ts) rS fS mS).map fun x => x.frequency).getD k 0 =
          ((attachScores (rfm cs ps ts) rS fS mS).getD k default).frequency :=
        getD_map _ _ 0 default hkb2
      rw [hmfreq] at h2
      have h3 : ((rfm cs ps ts).map fun r => (r.frequency : ℚ)).getD k 0 =
          (((rfm cs ps ts).getD k default).frequency : ℚ) :=
        getD_map _ _ 0 default hkb
      rw [h3]
      exact congrArg (fun z : ℕ => (z : ℚ)) (h1.symm.trans h2)
    have hrank : rankVal ((rfm cs ps ts).map fun r => (r.frequency : ℚ)) i = 1 := by
      unfold rankVal
      have hc1 : (((rfm cs ps ts).map fun r => (r.frequency : ℚ)).countP fun v =>
          decide (v < ((rfm cs ps ts).map fun r => (r.frequency : ℚ)).getD i 0)) = 0 := by
        rw [List.countP_eq_zero]
        intro x hx
        rcases List.mem_map.mp hx with ⟨b, hb, hbx⟩
        have hbmem : b.frequency ∈
            (attachScores (rfm cs ps ts) rS fS mS).map (·.frequency) := by
          rw [hmfreq]
          exact List.mem_map.mpr ⟨b, hb, rfl⟩
        rcases List.mem_map.mp hbmem with ⟨row', hrow', hrow'b⟩
        have hle := hmin row' hrow'
        rw [hcolF_all i hib, ← hbx, ← hrow'b]
        simp only [decide_eq_true_eq, not_lt]
        exact_mod_cast hle
      have hc2 : ((((rfm cs ps ts).map fun r => (r.frequency : ℚ)).take i).countP fun v =>
          decide (v = ((rfm cs ps ts).map fun r => (r.frequency : ℚ)).getD i 0)) = 0 := by
        rw [List.countP_eq_zero]
        intro x hx
        rcases List.mem_iff_getElem.mp hx with ⟨k, hk, hkx⟩
        have hki : k < i := by
          have hk' := hk
          rw [List.length_take] at hk'
          omega
        have hkb : k < (rfm cs ps ts).length := by omega
        have hkcol : k < ((rfm cs ps ts).map fun r => (r.frequency : ℚ)).length := by
          rw [List.length_map]; exact hkb
        have hxval : x = ((rfm cs ps ts).map fun r => (r.frequency : ℚ)).getD k 0 := by
          rw [← hkx, List.getD_eq_getElem _ _ hkcol]
          exact List.getElem_take _
        have hne := hfirst k hki
        rw [hxval, hcolF_all k hkb, hcolF_all i hib]
        simp only [decide_eq_true_eq]
        intro heq
        exact hne (by exact_mod_cast heq)
      rw [hc1, hc2]
    have hRi : (rankFirst ((rfm cs ps ts).map fun r => (r.frequency : ℚ))).getD i 0 =
        (1 : ℚ) := by
      rw [rankFirst_getD _ _ hcolFlen, hrank]
      norm_num
    have h1mem : (1 : ℚ) ∈ rankFirst ((rfm cs ps ts).map fun r => (r.frequency : ℚ)) := by
      rw [← hRi, List.getD_eq_getElem _ _ hRlen]
      exact List.getElem_mem hRlen
    have h1min : ∀ x ∈ rankFirst ((rfm cs ps ts).map fun r => (r.frequency : ℚ)),
        (1 : ℚ) ≤ x := by
      intro x hx
      rcases List.mem_iff_getElem.mp hx with ⟨k, hk, hkx⟩
      have hkb : k < ((rfm cs ps ts).map fun r => (r.frequency : ℚ)).length := by
        rw [rankFirst_length] at hk
        exact hk
      rw [← hkx, ← List.getD_eq_getElem _ 0 hk, rankFirst_getD _ _ hkb]
      have hpos : 1 ≤ rankVal ((rfm cs ps ts).map fun r => (r.frequency : ℚ)) k := by
        unfold rankVal
        omega
      exact_mod_cast hpos
    have hidx := qcutIdx_eq_one_of_min h1mem h1min
    have hsc : ((attachScores (rfm cs ps ts) rS fS mS).getD i default).f_score =
        fS.getD i 0 := by
      have h2 : ((attachScores (rfm cs ps ts) rS fS mS).map fun x => x.f_score).getD i 0 =
          ((attachScores (rfm cs ps ts) rS fS mS).getD i default).f_score :=
        getD_map _ _ 0 default hi
      rw [hmf] at h2
      exact h2.symm
    have h4 : ((rankFirst ((rfm cs ps ts).map fun r => (r.frequency : ℚ))).map fun v =>
        ([1, 2, 3, 4, 5] : List ℕ).getD
          (qcutIdx (qcutEdges (rankFirst
            ((rfm cs ps ts).map fun r => (r.frequency : ℚ)))) v - 1) 0).getD i 0 =
        ([1, 2, 3, 4, 5] : List ℕ).getD
          (qcutIdx (qcutEdges (rankFirst ((rfm cs ps ts).map fun r => (r.frequency : ℚ))))
            ((rankFirst ((rfm cs ps ts).map fun r => (r.frequency : ℚ))).getD i 0) - 1) 0 :=
      getD_map _ _ 0 0 hRlen
    rw [hsc, hfSeq, h4, hRi, hidx]
    rfl
  · -- the f_score bins are always balanced
    intro w hw
    obtain ⟨hw1, hw5⟩ := mem_one_to_five hw
    have hc1 : scoreCount (attachScores (rfm cs ps ts) rS fS mS) (·.f_score) w =
        fS.countP fun x => decide (x = w) := by
      unfold scoreCount
      conv_rhs => rw [← hmf]
      rw [List.countP_map]
      exact List.countP_congr fun a _ => Iff.rfl
    have hc2 : (fS.countP fun x => decide (x = w)) =
        (rankFirst ((rfm cs ps ts).map fun r => (r.frequency : ℚ))).countP fun v =>
          decide (qcutIdx (qcutEdges (rankFirst
            ((rfm cs ps ts).map fun r => (r.frequency : ℚ)))) v = w) := by
      rw [hfSeq]
      exact countP_score_eq_countP_idx fun i h1 h5 => direct_label_iff w i hw1 hw5 h1 h5
    have hbal := qcut_column_balance (rankFirst_nodup _) hndF w hw1 hw5
    have hleneq : (rankFirst ((rfm cs ps ts).map fun r => (r.frequency : ℚ))).length =
        (attachScores (rfm cs ps ts) rS fS mS).length := by
      rw [rankFirst_length, List.length_map, hlen]
    constructor
    · rw [hc1, hc2, ← hleneq]
      exact hbal.1
    · rw [hc1, hc2, ← hleneq]
      exact hbal.2
  · -- the r_score bins are balanced when recencies are duplicate-free
    intro hnodup w hw
    obtain ⟨hw1, hw5⟩ := mem_one_to_five hw
    have hcolRnd : ((rfm cs ps ts).map fun r => (r.recency : ℚ)).Nodup := by
      have hchain : ((rfm cs ps ts).map fun r => (r.recency : ℚ)) =
          ((attachScores (rfm cs ps ts) rS fS mS).map (·.recency)).map
            (fun z : ℤ => (z : ℚ)) := by
        rw [hmrec, List.map_map]
        exact (List.map_congr_left fun _ _ => rfl).symm
      rw [hchain]
      exact hnodup.map Int.cast_injective
    have hc1 : scoreCount (attachScores (rfm cs ps ts) rS fS mS) (·.r_score) w =
        rS.countP fun x => decide (x = w) := by
      unfold scoreCount
      conv_rhs => rw [← hmr]
      rw [List.countP_map]
      exact List.countP_congr fun a _ => Iff.rfl
    have hc2 : (rS.countP fun x => decide (x = w)) =
        ((rfm cs ps ts).map fun r => (r.recency : ℚ)).countP fun v =>
          decide (qcutIdx (qcutEdges ((rfm cs ps ts).map fun r => (r.recency : ℚ))) v
            = 6 - w) := by
      rw [hrSeq]
      exact countP_score_eq_countP_idx fun i h1 h5 => inverted_label_iff w i hw1 hw5 h1 h5
    have hbal := qcut_column_balance hcolRnd hndR (6 - w) (by omega) (by omega)
    have hleneq : ((rfm cs ps ts).map fun r => (r.recency : ℚ)).length =
        (attachScores (rfm cs ps ts) rS fS mS).length := by
      rw [List.length_map, hlen]
    constructor
    · rw [hc1, hc2, ← hleneq]
      exact hbal.1
    · rw [hc1, hc2, ← hleneq]
      exact hbal.2
  · -- the m_score bins are balanced when monetary values are duplicate-free
    intro hnodup w hw
    obtain ⟨hw1, hw5⟩ := mem_one_to_five hw
    have hcolMnd : ((rfm cs ps ts).map fun r => r.monetary).Nodup := by
      have hchain : ((rfm cs ps ts).map fun r => r.monetary) =
          (attachScores (rfm cs ps ts) rS fS mS).map (·.monetary) := hmmon.symm
      rw [hchain]
      exact hnodup
    have hc1 : scoreCount (attachScores (rfm cs ps ts) rS fS mS) (·.m_score) w =
        mS.countP fun x => decide (x = w) := by
      unfold scoreCount
      conv_rhs => rw [← hmm]
      rw [List.countP_map]
      exact List.countP_congr fun a _ => Iff.rfl
    have hc2 : (mS.countP fun x => decide (x = w)) =
        ((rfm cs ps ts).map fun r => r.monetary).countP fun v =>
          decide (qcutIdx (qcutEdges ((rfm cs ps ts).map fun r => r.monetary)) v = w) := by
      rw [hmSeq]
      exact countP_score_eq_countP_idx fun i h1 h5 => direct_label_iff w i hw1 hw5 h1 h5
    have hbal := qcut_column_balance hcolMnd hndM w hw1 hw5
    have hleneq : ((rfm cs ps ts).map fun r => r.monetary).length =
        (attachScores (rfm cs ps ts) rS fS mS).length := by
      rw [List.length_map, hlen]
    constructor
    · rw [hc1, hc2, ← hleneq]
      exact hbal.1
    · rw [hc1, hc2, ← hleneq]
      exact hbal.2

/-- C3 counterexample: on the `ex10` dataset the scoring step succeeds,
yet the `r_score = 3` bin holds 4 of the 10 customers (a fifth ±1 would
allow at most 3), the `r_score = 2` bin is empty, and a customer with
the (tied) lowest frequency receives `f_score = 3 ≠ 1` — refuting both
the "each bin contains approximately 1/5 of the population, within ±1"
part and the "lowest value receives score 1" part of the claim as
stated. -/
theorem c3_ties_counterexample :
    rfm_scored ex10_customers ex10_products ex10_transactions = .ok ex10_scored ∧
    ex10_scored.length = 10 ∧
    scoreCount ex10_scored (·.r_score) 3 = 4 ∧
    ¬ withinFifth ex10_scored.length (scoreCount ex10_scored (·.r_score) 3) ∧
    scoreCount ex10_scored (·.r_score) 2 = 0 ∧
    (∃ row ∈ ex10_scored, (∀ row' ∈ ex10_scored, row.frequency ≤ row'.frequency) ∧
      row.f_score ≠ 1) := by
  refine ⟨by with_unfolding_all decide, by with_unfolding_all decide,
    by with_unfolding_all decide, ?_, by with_unfolding_all decide,
    by with_unfolding_all decide⟩
  have h1 : ex10_scored.length = 10 := by with_unfolding_all decide
  have h2 : scoreCount ex10_scored (·.r_score) 3 = 4 := by with_unfolding_all decide
  rw [h1, h2]
  unfold withinFifth
  omega

/-- C3 witness: the amended claim instantiated on the two-customer
dataset, on which scoring succeeds. -/
theorem c3_witness : QuintileScoreSpec ex2_scored :=
  c3_quintile_scores_amended ex2_customers ex2_products ex2_transactions ex2_scored
    (by with_unfolding_all decide)

/-! ## Claim C6 (amended): when quintile binning fails -/

/-- C6 (amended): `pd.qcut` raises exactly when the six interpolated
quantile edges of the column contain a duplicate — NOT whenever the
column has too few distinct values for 5 equal-sized bins
(`c6_counterexample`: two distinct values bin fine, with empty middle
bins); the frequency column is rank-transformed with the stable
first-occurrence tie-break, which guarantees distinct edges — and hence
successful binning — for every population of at least two customers,
regardless of ties; heavy value ties (here 4 of 5 values equal) do make
the edges collide and raise the error. -/
theorem c6_binning_amended :
    (∀ (l : List ℚ) (labels : List ℕ),
      (qcut l labels).isOk = true ↔ (qcutEdges l).Nodup) ∧
    (∀ l : List ℚ, 2 ≤ l.length → (qcut (rankFirst l) [1, 2, 3, 4, 5]).isOk = true) ∧
    qcut [1, 1, 1, 1, 5] [1, 2, 3, 4, 5] = .error "Bin edges must be unique" := by
  refine ⟨qcut_isOk_iff, fun l h2 => qcut_rank_isOk h2 _, ?_⟩
  with_unfolding_all decide

/-- C6 counterexample: on the two-customer dataset the recency column
has only two distinct values — far too few for five equal-sized bins —
yet the scoring step of lines 110-112 succeeds rather than raising. -/
theorem c6_counterexample :
    rfm_scored ex2_customers ex2_products ex2_transactions = .ok ex2_scored ∧
    ((rfm ex2_customers ex2_products ex2_transactions).map (·.recency)).dedup.length = 2 ∧
    2 < 5 := by
  refine ⟨by with_unfolding_all decide, by with_unfolding_all decide, by omega⟩

/-- C6 witness: the amended claim instantiated — binning an all-tied
three-customer frequency column succeeds thanks to the rank transform,
and the success criterion is exactly edge distinctness. -/
theorem c6_witness :
    (qcut (rankFirst [3, 3, 3]) [1, 2, 3, 4, 5]).isOk = true ∧
    ((qcut [1, 2] [5, 4, 3, 2, 1]).isOk = true ↔ (qcutEdges [1, 2]).Nodup) := by
  constructor
  · exact c6_binning_amended.2.1 [3, 3, 3] (by norm_num)
  · exact c6_binning_amended.1 [1, 2] [5, 4, 3, 2, 1]

/-! ## Claim C4: the segment rule cascade -/

/-- C4: `assign_segment_name` is a pure function of the three numeric
scores evaluated as an ordered first-match-wins cascade — it coincides
with the spec's explicit rule-list evaluation (`spec_segment_cascade`) on
every triple; in particular `(5,5,5) ↦ "Champions"`,
`(1,1,1) ↦ "At Risk"`, `(3,3,1) ↦ "Loyal Customers"`, and every triple
matching no rule gets `"Others"`. -/
theorem c4_segment_cascade :
    (∀ r f m : ℕ, assign_segment_name r f m = spec_segment_cascade r f m) ∧
    assign_segment_name 5 5 5 = "Champions" ∧
    assign_segment_name 1 1 1 = "At Risk" ∧
    assign_segment_name 3 3 1 = "Loyal Customers" ∧
    (∀ r f m : ℕ, ¬(4 ≤ r ∧ 4 ≤ f ∧ 4 ≤ m) → ¬(3 ≤ r ∧ 3 ≤ f) →
      ¬(4 ≤ r ∧ f ≤ 2) → ¬(r ≤ 2) → assign_segment_name r f m = "Others") := by
  refine ⟨?_, by decide, by decide, by decide, ?_⟩
  · intro r f m
    by_cases h1 : 4 ≤ r ∧ 4 ≤ f ∧ 4 ≤ m <;>
      by_cases h2 : 3 ≤ r ∧ 3 ≤ f <;>
        by_cases h3 : 4 ≤ r ∧ f ≤ 2 <;>
          by_cases h4 : r ≤ 2 <;>
            simp [assign_segment_name, spec_segment_cascade, firstMatch, segmentRules,
              h1, h2, h3, h4]
  · intro r f m h1 h2 h3 h4
    unfold assign_segment_name
    rw [if_neg h1, if_neg h2, if_neg h3, if_neg h4]

/-- C4 witness: the cascade equality and the default rule instantiated
at concrete score triples. -/
theorem c4_witness :
    assign_segment_name 2 5 5 = spec_segment_cascade 2 5 5 ∧
    assign_segment_name 3 2 4 = "Others" :=
  ⟨c4_segment_cascade.1 2 5 5,
   c4_segment_cascade.2.2.2.2 3 2 4 (by omega) (by omega) (by omega) (by omega)⟩

/-! ## Claim C7: the clustering contract -/

theorem argminIdx_lt {l : List ℚ} (h : l ≠ []) : argminIdx l < l.length := by
  induction l with
  | nil => exact absurd rfl h
  | cons x xs ih =>
    cases xs with
    | nil => simp [argminIdx]
    | cons y ys =>
      have hj := ih (by simp)
      have hdef : argminIdx (x :: y :: ys) =
          if x ≤ (y :: ys).getD (argminIdx (y :: ys)) 0 then 0
          else argminIdx (y :: ys) + 1 := rfl
      rw [hdef]
      split_ifs
      · simp
      · simp only [List.length_cons] at hj ⊢
        omega

theorem updateCentroids_length (dv : ℚ × ℚ × ℚ) (pts cents : List FeatureVec) :
    (updateCentroids dv pts cents).length = cents.length := by
  unfold updateCentroids
  rw [List.length_map, List.length_range]

theorem lloydIter_length (dv : ℚ × ℚ × ℚ) (pts : List FeatureVec) (n : ℕ)
    (cents : List FeatureVec) : (lloydIter dv pts n cents).length = cents.length := by
  induction n generalizing cents with
  | zero => rfl
  | succ n ih =>
    have hstep : lloydIter dv pts (n + 1) cents =
        lloydIter dv pts n (updateCentroids dv pts cents) := rfl
    rw [hstep, ih, updateCentroids_length]

/-- the modelled `fit_predict` contract: a label per sample, each below
`k`, whenever there are at least `k` samples. -/
theorem kmeans_ok_labels {k : ℕ} {pts : List FeatureVec} {labels : List ℕ}
    (hk : 0 < k) (h : kmeans_fit_predict k pts = .ok labels) :
    labels.length = pts.length ∧ ∀ c ∈ labels, c < k := by
  unfold kmeans_fit_predict at h
  split_ifs at h with hlt
  injection h with h'
  subst h'
  constructor
  · rw [assignLabels, List.length_map]
  · intro c hc
    rcases List.mem_map.mp hc with ⟨p, _hp, hpc⟩
    have hcentlen : (lloydIter (featureDivisors pts) pts 10 (pts.take k)).length = k := by
      rw [lloydIter_length, List.length_take]
      omega
    have hne : (lloydIter (featureDivisors pts) pts 10 (pts.take k)).map
        (wsqDist (featureDivisors pts) p) ≠ [] := by
      intro h0
      have hlen0 := congrArg List.length h0
      rw [List.length_map, hcentlen] at hlen0
      simp at hlen0
      omega
    have hlt' := argminIdx_lt hne
    rw [List.length_map, hcentlen] at hlt'
    rw [← hpc]
    exact hlt'

/-- C7: if the RFM table has fewer than `K = 4` rows (one row per
distinct customer), the clustering step raises
(`n_samples should be >= n_clusters`) instead of degrading; otherwise it
succeeds and assigns every customer exactly one integer cluster label
out of `{0,1,2,3}`. -/
theorem c7_clustering_contract (cs : List Customer) (ps : List Product)
    (ts : List Transaction) :
    ((rfm cs ps ts).length < 4 → (rfm_clustered cs ps ts).isOk = false) ∧
    (4 ≤ (rfm cs ps ts).length → (rfm_clustered cs ps ts).isOk = true) ∧
    ∀ labels, rfm_clustered cs ps ts = .ok labels →
      labels.length = (rfm cs ps ts).length ∧ ∀ c ∈ labels, c < 4 := by
  have hflen : ((rfm cs ps ts).map fun r =>
      ((r.recency : ℚ), (r.frequency : ℚ), r.monetary)).length =
      (rfm cs ps ts).length := List.length_map _ _
  refine ⟨?_, ?_, ?_⟩
  · intro h4
    unfold rfm_clustered kmeans_fit_predict
    rw [if_pos (by rw [hflen]; exact h4)]
    rfl
  · intro h4
    unfold rfm_clustered kmeans_fit_predict
    rw [if_neg (by rw [hflen]; omega)]
    rfl
  · intro labels hlab
    obtain ⟨hlen, hrange⟩ := kmeans_ok_labels (by norm_num) hlab
    exact ⟨hlen.trans hflen, hrange⟩

/-- C7 witness: two customers are too few for `K = 4` and raise, while
the ten-customer dataset is clustered with one label below 4 per row. -/
theorem c7_witness :
    (rfm_clustered ex2_customers ex2_products ex2_transactions).isOk = false ∧
    ex10_labels.length = (rfm ex10_customers ex10_products ex10_transactions).length ∧
    ∀ c ∈ ex10_labels, c < 4 := by
  refine ⟨?_, ?_⟩
  · exact (c7_clustering_contract ex2_customers ex2_products ex2_transactions).1
      (by with_unfolding_all decide)
  · exact (c7_clustering_contract ex10_customers ex10_products ex10_transactions).2.2
      ex10_labels (by with_unfolding_all decide)

/-! ## Claim C10: the segment labels partition the population -/

theorem cast_sum_map {α : Type} (f : α → ℕ) (l : List α) :
    (l.map fun a => ((f a : ℕ) : ℚ)).sum = (((l.map f).sum : ℕ) : ℚ) := by
  induction l with
  | nil => simp
  | cons a t ih => simp [ih]

/-- C10: `assign_segment_name` is total with exactly the five labels as
possible values, and the segment-profile customer counts add up to the
number of RFM rows (so the pre-rounding percentages add up to 100). -/
theorem c10_segment_partition :
    (∀ r f m : ℕ, assign_segment_name r f m ∈
      (["Champions", "Loyal Customers", "Potential Loyalists", "At Risk", "Others"] :
        List String)) ∧
    ∀ (cs : List Customer) (ps : List Product) (ts : List Transaction)
      (rows : List FinalRow), rfm_final cs ps ts = .ok rows →
      ((segment_profile rows).map (·.customer_count)).sum = rows.length ∧
      (rows.length ≠ 0 →
        ((segment_profile rows).map fun p =>
          (p.customer_count : ℚ) / rows.length * 100).sum = 100) := by
  constructor
  · intro r f m
    unfold assign_segment_name
    split_ifs <;> simp
  · intro cs ps ts rows _h
    have hcount : ((segment_profile rows).map (·.customer_count)).sum = rows.length := by
      have hsum := groups_length (fun row : FinalRow => row.segment_name)
        (group_keys rows (·.segment_name)) rows (nodup_group_keys _ _)
        (fun row hrow => mem_group_keys.mpr (List.mem_map.mpr ⟨row, hrow, rfl⟩))
      unfold segment_profile
      rw [List.map_map, ← hsum]
      exact congrArg List.sum (List.map_congr_left fun seg _ => rfl)
    refine ⟨hcount, ?_⟩
    intro hne
    have hcast : ((segment_profile rows).map fun p => (p.customer_count : ℚ)).sum =
        ((rows.length : ℕ) : ℚ) := by
      rw [cast_sum_map (fun p : SegmentProfileRow => p.customer_count), hcount]
    have hstep : ((segment_profile rows).map fun p =>
        (p.customer_count : ℚ) / rows.length * 100).sum =
        ((segment_profile rows).map fun p =>
          (p.customer_count : ℚ) * (100 / rows.length)).sum := by
      exact congrArg List.sum (List.map_congr_left fun p _ => by ring)
    rw [hstep, List.sum_map_mul_right, hcast]
    have hne' : ((rows.length : ℕ) : ℚ) ≠ 0 := by exact_mod_cast hne
    field_simp

/-- C10 witness: the partition instantiated on the ten-customer dataset,
whose pipeline (scores, clustering, segments) succeeds end to end. -/
theorem c10_witness :
    ((segment_profile ex10_final).map (·.customer_count)).sum = ex10_final.length ∧
    ((segment_profile ex10_final).map fun p =>
      (p.customer_count : ℚ) / ex10_final.length * 100).sum = 100 := by
  obtain ⟨h1, h2⟩ := c10_segment_partition.2 ex10_customers ex10_products
    ex10_transactions ex10_final (by with_unfolding_all decide)
  exact ⟨h1, h2 (by with_unfolding_all decide)⟩

/-! ## Claim C9 (amended): category performance -/

theorem sum_cents {l : List ℚ} (h : ∀ x ∈ l, ∃ k : ℤ, x = (k : ℚ) / 100) :
    ∃ k : ℤ, l.sum = (k : ℚ) / 100 := by
  induction l with
  | nil => exact ⟨0, by norm_num⟩
  | cons a t ih =>
    rcases h a (List.mem_cons_self a t) with ⟨k1, hk1⟩
    rcases ih (fun x hx => h x (List.mem_cons_of_mem a hx)) with ⟨k2, hk2⟩
    refine ⟨k1 + k2, ?_⟩
    rw [List.sum_cons, hk1, hk2]
    push_cast
    ring

/-- rounding to cents is the identity on whole-cent amounts. -/
theorem roundTo_two_cents {x : ℚ} (h : ∃ k : ℤ, x = (k : ℚ) / 100) :
    roundTo 2 x = x := by
  rcases h with ⟨k, rfl⟩
  unfold roundTo roundHalfEven
  have h100 : ((k : ℚ) / 100) * 10 ^ 2 = (k : ℚ) := by push_cast; ring
  rw [h100, Int.floor_intCast]
  rw [if_pos (by rw [sub_self]; norm_num)]
  norm_num

/-- C9 (amended): the category performance table is always sorted by
total revenue descending; and its per-category revenues add up to the
grand total revenue whenever every transaction amount is a whole number
of cents — the `.round(2)` of line 80 is then the identity on the
category sums (`c9_rounding_counterexample` shows a sub-cent amount
breaks the exact equality, which is what forces this amendment). -/
theorem c9_category_performance_amended (cs : List Customer) (ps : List Product)
    (ts : List Transaction) :
    (category_performance cs ps ts).Sorted (fun a b => b.total_revenue ≤ a.total_revenue) ∧
    ((∀ r ∈ sales_data cs ps ts, ∃ k : ℤ, r.total_amount = (k : ℚ) / 100) →
      ((category_performance cs ps ts).map (·.total_revenue)).sum =
        total_revenue cs ps ts) := by
  haveI htot : IsTotal CategoryRow (fun a b => b.total_revenue ≤ a.total_revenue) :=
    ⟨fun a b => le_total b.total_revenue a.total_revenue⟩
  haveI htrans : IsTrans CategoryRow (fun a b => b.total_revenue ≤ a.total_revenue) :=
    ⟨fun _ _ _ hab hbc => le_trans hbc hab⟩
  constructor
  · exact List.sorted_insertionSort _ _
  · intro hcents
    unfold category_performance
    have hperm := (List.perm_insertionSort
      (fun a b : CategoryRow => b.total_revenue ≤ a.total_revenue)
      ((group_keys (sales_data cs ps ts) (·.product_category)).map fun cat =>
        let g := (sales_data cs ps ts).filter fun r => r.product_category = cat
        { product_category := cat
          total_revenue := roundTo 2 (g.map (·.total_amount)).sum
          avg_order_value := roundTo 2 (mean (g.map (·.total_amount)))
          transaction_count := g.length
          total_quantity := roundTo 2 (g.map (·.quantity)).sum : CategoryRow })).map
      (·.total_revenue)
    rw [hperm.sum_eq, List.map_map]
    have hrow : ∀ cat ∈ group_keys (sales_data cs ps ts) (·.product_category),
        roundTo 2 ((((sales_data cs ps ts).filter
          fun r => r.product_category = cat).map (·.total_amount)).sum) =
        (((sales_data cs ps ts).filter
          fun r => r.product_category = cat).map (·.total_amount)).sum := by
      intro cat _
      refine roundTo_two_cents (sum_cents ?_)
      intro x hx
      rcases List.mem_map.mp hx with ⟨r, hr, hrx⟩
      rcases hcents r (List.mem_filter.mp hr).1 with ⟨k, hk⟩
      exact ⟨k, by rw [← hrx, hk]⟩
    have hcong : (List.map ((fun x => x.total_revenue) ∘ fun cat =>
        let g := (sales_data cs ps ts).filter fun r => r.product_category = cat
        { product_category := cat
          total_revenue := roundTo 2 (g.map (·.total_amount)).sum
          avg_order_value := roundTo 2 (mean (g.map (·.total_amount)))
          transaction_count := g.length
          total_quantity := roundTo 2 (g.map (·.quantity)).sum : CategoryRow })
        (group_keys (sales_data cs ps ts) (·.product_category))) =
        (group_keys (sales_data cs ps ts) (·.product_category)).map fun cat =>
          (((sales_data cs ps ts).filter
            fun r => r.product_category = cat).map (·.total_amount)).sum :=
      List.map_congr_left fun cat hcat => hrow cat hcat
    rw [hcong]
    exact groups_sum (fun r : SalesRecord => r.product_category) (·.total_amount)
      _ _ (nodup_group_keys _ _)
      (fun r hr => mem_group_keys.mpr (List.mem_map.mpr ⟨r, hr, rfl⟩))

/-- C9 counterexample: with the sub-cent amount `0.004` the rounded
category revenue is `0.00`, so the category revenues do not add up to
the grand total `0.004` — the sum-equality part of the claim as stated
fails. -/
theorem c9_rounding_counterexample :
    ((category_performance exsub_customers exsub_products exsub_transactions).map
      (·.total_revenue)).sum = 0 ∧
    total_revenue exsub_customers exsub_products exsub_transactions = 1 / 250 ∧
    (0 : ℚ) ≠ 1 / 250 := by
  refine ⟨by with_unfolding_all decide, by with_unfolding_all decide, by norm_num⟩

/-- C9 witness: on the two-customer dataset (whole-cent amounts 10 and
20) the sum equality holds. -/
theorem c9_witness :
    ((category_performance ex2_customers ex2_products ex2_transactions).map
      (·.total_revenue)).sum =
      total_revenue ex2_customers ex2_products ex2_transactions := by
  refine (c9_category_performance_amended ex2_customers ex2_products ex2_transactions).2 ?_
  intro r hr
  have hmem : r.total_amount ∈
      (sales_data ex2_customers ex2_products ex2_transactions).map (·.total_amount) :=
    List.mem_map.mpr ⟨r, hr, rfl⟩
  have hcol : (sales_data ex2_customers ex2_products ex2_transactions).map (·.total_amount) =
      [10, 20] := by with_unfolding_all decide
  rw [hcol] at hmem
  rcases List.mem_cons.mp hmem with h10 | hmem'
  · exact ⟨1000, by rw [h10]; norm_num⟩
  · rcases List.mem_cons.mp hmem' with h20 | hmem''
    · exact ⟨2000, by rw [h20]; norm_num⟩
    · cases hmem''

/-! ## Witnesses for the per-customer table claims -/

/-- C1 witness: the one-row-per-customer property on the two-customer
dataset, whose customer ids are distinct. -/
theorem c1_witness :
    ((rfm ex2_customers ex2_products ex2_transactions).map (·.customer_id)).Nodup ∧
    ∀ k : ℕ,
      k ∈ (sales_data ex2_customers ex2_products ex2_transactions).map (·.customer_id) ↔
      k ∈ (rfm ex2_customers ex2_products ex2_transactions).map (·.customer_id) :=
  c1_one_rfm_row_per_customer ex2_customers ex2_products ex2_transactions
    (by with_unfolding_all decide)

/-- C2 witness: recency of the first RFM row of the two-customer dataset
equals snapshot minus its own max transaction date and is non-negative. -/
theorem c2_witness :
    ((rfm ex2_customers ex2_products ex2_transactions).getD 0 default).recency =
      snapshot_date ex2_customers ex2_products ex2_transactions -
        listMaxInt (((sales_data ex2_customers ex2_products ex2_transactions).filter
          fun r => r.customer_id =
            ((rfm ex2_customers ex2_products ex2_transactions).getD 0
              default).customer_id).map (·.transaction_date)) ∧
    0 ≤ ((rfm ex2_customers ex2_products ex2_transactions).getD 0 default).recency :=
  (c2_recency_global_snapshot ex2_customers ex2_products ex2_transactions).2
    ((rfm ex2_customers ex2_products ex2_transactions).getD 0 default)
    (by with_unfolding_all decide)

/-- C5 witness: on the two-customer dataset the frequencies add up to the
number of joined sales rows. -/
theorem c5_witness :
    ((rfm ex2_customers ex2_products ex2_transactions).map (·.frequency)).sum =
      (sales_data ex2_customers ex2_products ex2_transactions).length :=
  c5_frequency_partition ex2_customers ex2_products ex2_transactions
    (by with_unfolding_all decide)

/-- C8 witness: the inner-join membership equivalence instantiated at the
first transaction of the two-customer dataset. -/
theorem c8_witness :
    ((ex2_transactions.getD 0 ⟨0, 0, 0, 0, 0, 0⟩).customer_id ∈
        ex2_customers.map (·.customer_id) ∧
      (ex2_transactions.getD 0 ⟨0, 0, 0, 0, 0, 0⟩).product_id ∈
        ex2_products.map (·.product_id)) ↔
      ∃ r ∈ sales_data ex2_customers ex2_products ex2_transactions,
        r.transaction_id = (ex2_transactions.getD 0 ⟨0, 0, 0, 0, 0, 0⟩).transaction_id :=
  c8_inner_join_semantics ex2_customers ex2_products ex2_transactions
    (by with_unfolding_all decide)
    (ex2_transactions.getD 0 ⟨0, 0, 0, 0, 0, 0⟩) (by with_unfolding_all decide)

end RetailAnalysis
